import Mathlib

/-!
Shallow embedding of the field-dependency and specification-generation core
of the `scipy-dataclassfitparams` package:

* `src/scipy_dataclassfitparams/_depgraph.py` (`DepGraph`)
* `src/scipy_dataclassfitparams/_fields.py` (field declarations and
  `BoundedField` default resolution)
* `src/scipy_dataclassfitparams/_fit_spec.py` (`FitSpecBase.generate`,
  `FitSpec.create_default_fit_instance`, `FitSpec.instance_to_array`,
  `FitSpec.array_to_instance`)

Modelling choices:
* Python floats are modelled by `EF`: a rational (`Rat`) or one of the two
  infinities.  The code only manipulates finite values and `±inf`
  (no NaN arises in the modelled paths), and never depends on rounding.
* The `scipy.sparse` adjacency matrix of `DepGraph` stores the value `-1`
  at `(which, source)`; we model the set of `-1` entries as a list of index
  pairs `edges`, in insertion order.
* `scipy.sparse.csgraph.floyd_warshall` over the `-1`-weighted matrix raises
  `NegativeCycleError` exactly when the directed graph has a cycle (every
  edge has weight `-1`, so every closed walk is a negative cycle).
  `has_closed_cycles` is therefore embedded as an executable decision of
  "some directed cycle exists" (bounded reachability saturation), and this
  equivalence is proved below.
* CPython set iteration over the sets `set(range(N))` used by
  `get_init_order` (with elements only removed, never added) visits the
  integers in ascending order, since small nonnegative integers hash to
  themselves and the table never shrinks below `N` slots; the remaining-set
  scan is modelled by an ascending index list.
* Exceptions are modelled by `Except SpecError`; Python dicts used only via
  `d[k]`/`d[k] = v` are modelled by association lists where insertion is
  `cons` (lookup returns the most recent binding, matching dict overwrite).
* Mutation of a `DepGraph` by `add_dependency` is modelled by returning the
  (possibly unchanged) graph next to the `Except` result; the Python method
  raises before any mutation, which the embedding mirrors.
-/

namespace SDFitParams

/-- Extended values: a finite rational or one of the IEEE infinities. -/
inductive EF where
  | fin (q : Rat)
  | pinf
  | ninf
deriving DecidableEq

/-- `cmath.isfinite` on an `EF` value. -/
def EF.isFinite : EF → Bool
  | .fin _ => true
  | _ => false

/-- IEEE `<=` restricted to non-NaN values. -/
def EF.le : EF → EF → Bool
  | .ninf, _ => true
  | _, .pinf => true
  | .fin a, .fin b => a ≤ b
  | .pinf, _ => false
  | .fin _, .ninf => false

/-- The four recognized fitting-field kinds (`_fields.py`):
plain/`RegularField`, `BoundedField(min, max)`, `ConstField(value)`,
`SameAsField(name)`.  A plain dataclass field (no metadata) is handled
identically to `RegularField` by `FitSpecBase.generate`, so both are
collapsed into `.regular`. -/
inductive FieldKind where
  | regular
  | bounded (min max : EF)
  | const (value : EF)
  | sameAs (name : String)
deriving DecidableEq

/-- One constructor-relevant dataclass field, in declaration order:
its name, its fitting kind and its dataclass `default`
(`none` models `dataclasses.MISSING`). -/
structure FieldDecl where
  name : String
  kind : FieldKind
  default : Option EF
deriving DecidableEq

/-- The `regular()` field helper (also covers fields with no metadata). -/
def regularF (name : String) (default : Option EF) : FieldDecl :=
  ⟨name, .regular, default⟩

/-- The `bounded()` field helper: unset boundaries become `-inf` / `+inf`.
(The declaration-time `min > max` check happens before the core runs and is
not part of the generation engine.) -/
def boundedF (name : String) (min max : Option EF) (default : Option EF) :
    FieldDecl :=
  ⟨name, .bounded (min.getD .ninf) (max.getD .pinf), default⟩

/-- The `const()` field helper: the value is also set as the dataclass
default of the field. -/
def constF (name : String) (value : EF) : FieldDecl :=
  ⟨name, .const value, some value⟩

/-- The `same_as()` field helper. -/
def sameAsF (name : String) (target : String) (default : Option EF) :
    FieldDecl :=
  ⟨name, .sameAs target, default⟩

/-- `BoundedField.contains`: membership in `[min, max]`, each side checked
only when finite. -/
def efContains (min max v : EF) : Bool :=
  (if min.isFinite then EF.le min v else true) &&
    (if max.isFinite then EF.le v max else true)

/-- `BoundedField.get_bounds_default`: midpoint if both bounds are finite,
`min + 1` / `max - 1` if only one is, else `0.0`. -/
def getBoundsDefault (min max : EF) : EF :=
  match min, max with
  | .fin a, .fin b => .fin ((1 : Rat) / 2 * (a + b))
  | .fin a, _ => .fin (a + 1)
  | _, .fin b => .fin (b - 1)
  | _, _ => .fin 0

/-- `BoundedField.resolve_default`: use the declared default when present
and inside the bounds, else the bounds default. -/
def resolveDefault (min max : EF) (fieldDefault : Option EF) : EF :=
  match fieldDefault with
  | some d => if efContains min max d then d else getBoundsDefault min max
  | none => getBoundsDefault min max

/-- The exceptions surfaced by the embedded code, by Python exception site:
`invalidDependency` / `circularDependency` / `circularDependencies` are the
`ValueError`s of `DepGraph.add_dependency` (self-dependency, eager 2-cycle)
and of the full-graph cycle checks; `keyError` is a failed dict lookup;
`indexError` a failed numpy assignment; `shapeMismatch` the `ValueError` of
the array conversions; `typeError` a failed dataclass construction;
`assertionError` the `AssertionError` checks in `generate`;
`attributeError` a failed `getattr`. -/
inductive SpecError where
  | invalidDependency (which : String)
  | circularDependency (which source : String)
  | circularDependencies
  | keyError (name : String)
  | indexError
  | shapeMismatch
  | typeError
  | assertionError
  | attributeError (name : String)
deriving DecidableEq

/-- The dependency graph of `_depgraph.py`: the ordered node names, the set
of `-1` entries of the sparse matrix as an ordered list of
`(which-index, source-index)` pairs, and the edge counter `_num_deps`. -/
structure DepGraph where
  fields : List String
  edges : List (Nat × Nat)
  numDeps : Nat
deriving DecidableEq

/-- `DepGraph.__init__`. -/
def DepGraph.ofFields (fields : List String) : DepGraph :=
  ⟨fields, [], 0⟩

/-- `N`, the number of nodes. -/
def DepGraph.N (g : DepGraph) : Nat := g.fields.length

/-- The dict comprehension building `_key_map`
(`\x7bs: i for i, s in enumerate(fields)\x7d`): on duplicate names the later
index wins, which `keyIdxAux` mirrors by preferring the recursive result. -/
def keyIdxAux (l : List String) (i : Nat) (s : String) : Option Nat :=
  match l with
  | [] => none
  | a :: rest =>
    match keyIdxAux rest (i + 1) s with
    | some j => some j
    | none => if a = s then some i else none

/-- `_key_map` lookup (raising `KeyError` is handled at the call sites). -/
def DepGraph.keyIdx (g : DepGraph) (s : String) : Option Nat :=
  keyIdxAux g.fields 0 s

/-- `DepGraph.add_dependency`.  Returns the (unchanged on failure) graph
together with the result: `true` if the edge was added, `false` if already
present; `ValueError` on a self-dependency or when the reverse edge exists,
`KeyError` when a name is not a node (first `which`, then `source`, as in
the source). -/
def DepGraph.add_dependency (g : DepGraph) (which source : String) :
    DepGraph × Except SpecError Bool :=
  if which = source then
    (g, .error (.invalidDependency which))
  else
    match g.keyIdx which with
    | none => (g, .error (.keyError which))
    | some wi =>
      match g.keyIdx source with
      | none => (g, .error (.keyError source))
      | some si =>
        if (wi, si) ∈ g.edges then
          (g, .ok false)
        else if (si, wi) ∈ g.edges then
          (g, .error (.circularDependency which source))
        else
          ({ g with
              edges := g.edges ++ [(wi, si)],
              numDeps := g.numDeps + 1 },
            .ok true)

/-- `DepGraph.dependency_count`. -/
def DepGraph.dependency_count (g : DepGraph) : Nat := g.numDeps

/-- One saturation step of forward reachability from node `i`:
`reachIter g i k` is the canonical (ascending, duplicate-free) list of
nodes `< N` reachable from `i` by a path of between `1` and `k + 1` edges. -/
def DepGraph.reachIter (g : DepGraph) (i : Nat) : Nat → List Nat
  | 0 => (List.range g.N).filter (fun j => decide ((i, j) ∈ g.edges))
  | k + 1 =>
    let s := g.reachIter i k
    (List.range g.N).filter
      (fun j => decide (j ∈ s ∨ ∃ m, m ∈ s ∧ (m, j) ∈ g.edges))

/-- `DepGraph.has_closed_cycles`: the source runs
`scipy.sparse.csgraph.floyd_warshall` on the `-1`-weighted matrix and
reports whether `NegativeCycleError` was raised, i.e. whether the directed
graph has a cycle; the embedding decides exactly that (the equivalence with
the existence of a directed cycle is proved below). -/
def DepGraph.has_closed_cycles (g : DepGraph) : Bool :=
  (List.range g.N).any (fun i => decide (i ∈ g.reachIter i g.N))

/-- The initial `nnum_deps` row sums: entry `i` of the matrix row sum is
`-1` per stored edge `(i, _)` (opposite signs, as in the source). -/
def DepGraph.rowSum (g : DepGraph) (i : Nat) : Int :=
  -(g.edges.countP (fun e => e.1 == i) : Int)

/-- The decrement pass of `get_init_order` after selecting `idx`: every
still-remaining `i` with a stored edge `(i, idx)` has its count raised
by one (opposite signs). -/
def decStep (g : DepGraph) (counts : Nat → Int) (remaining : List Nat)
    (idx : Nat) : Nat → Int :=
  fun i =>
    if i ∈ remaining ∧ (i, idx) ∈ g.edges then counts i + 1 else counts i

/-- The `while idx_in_tree` loop of `get_init_order`: scan the remaining
nodes in ascending order, pick the first whose count is zero, decrement,
remove, repeat.  The loop is written with an explicit fuel that `initLoop`
sets to the number of remaining nodes: every iteration removes exactly one
node, so the fuel cannot run out before the set empties.  When no node
qualifies the Python loop never terminates; that branch returns `[]` here
and is proved unreachable under the cycle check that guards every call. -/
def initLoopF (g : DepGraph) : Nat → (Nat → Int) → List Nat → List Nat
  | 0, _, _ => []
  | fuel + 1, counts, remaining =>
    match remaining.find? (fun idx => counts idx == 0) with
    | none => []
    | some idx =>
      idx :: initLoopF g fuel (decStep g counts remaining idx)
        (remaining.erase idx)

/-- The `while idx_in_tree` loop of `get_init_order`, at its full fuel. -/
def initLoop (g : DepGraph) (counts : Nat → Int) (remaining : List Nat) :
    List Nat :=
  initLoopF g remaining.length counts remaining

/-- `DepGraph.get_init_order`. -/
def DepGraph.get_init_order (g : DepGraph) :
    Except SpecError (List String) :=
  if g.has_closed_cycles then
    .error .circularDependencies
  else
    .ok ((initLoop g g.rowSum (List.range g.N)).map
      (fun i => g.fields.getD i ""))

/-- `DependentResolver`: `target` is the depending field, `name` the field
whose already-resolved value it copies. -/
structure DependentResolver where
  target : String
  name : String
deriving DecidableEq

/-- The three `DefaultResolver` behaviours of `_fit_spec.py`:
`UnsetDefaultResolver` (yields `0.0`), `FixedDefaultResolver(value)`, and
`DependentResolver`. -/
inductive DefaultResolver where
  | unset
  | fixed (value : EF)
  | dependent (r : DependentResolver)
deriving DecidableEq

/-- `DefaultResolver.get(others)`; the dependent case is `others[name]`,
raising `KeyError` when absent. -/
def DefaultResolver.get (r : DefaultResolver) (others : List (String × EF)) :
    Except SpecError EF :=
  match r with
  | .unset => .ok (.fin 0)
  | .fixed v => .ok v
  | .dependent d =>
    match others.lookup d.name with
    | some v => .ok v
    | none => .error (.keyError d.name)

/-- One side of the `bounds` tuple: a scalar `±inf` or a dense array. -/
inductive BoundsSide where
  | scalar (v : EF)
  | arr (a : List EF)
deriving DecidableEq

/-- The generated specification (`FitSpecBase` plus the `clss` field of
`FitSpec`; `clss`, the dataclass itself, is represented by its ordered
field declarations, which is all the conversion operations use of it). -/
structure FitSpec where
  special_param_count : Nat
  init_order : List String
  fitting_param_count : Nat
  fitting_params : List String
  fitting_fields : List (String × FieldKind)
  default_resolvers : List DefaultResolver
  lower_bounds : Option (List EF)
  upper_bounds : Option (List EF)
  bounds : BoundsSide × BoundsSide
  dep_resolvers : List DependentResolver
  clss : List FieldDecl
deriving DecidableEq

/-- `FitSpecBase._process_bounds`: `None` when no bound was set, otherwise
a dense array of length `num_params` filled with `default` and overwritten
at each sparse index; a numpy assignment at an index `>= num_params` raises
`IndexError`. -/
def process_bounds (set_bounds : List (Nat × EF)) (num_params : Nat)
    (default : EF) : Except SpecError (Option (List EF)) :=
  if set_bounds.isEmpty then
    .ok none
  else do
    let arr ← set_bounds.foldlM
      (fun (arr : List EF) kv =>
        if kv.1 < arr.length then .ok (arr.set kv.1 kv.2)
        else .error .indexError)
      (List.replicate num_params default)
    .ok (some arr)

/-- The mutable state threaded through the field loop of
`FitSpecBase.generate`. -/
structure GenState where
  graph : DepGraph
  field_descriptors : List (String × FieldKind)
  set_lower : List (Nat × EF)
  set_upper : List (Nat × EF)
  resolvers : List DefaultResolver
  special : List String
  fitting : List String
  depMap : List (String × DependentResolver)
deriving DecidableEq

/-- The `for i, field in enumerate(init_fields)` loop of
`FitSpecBase.generate`: classify each field, append it to the special
fields and the descriptor map, record its bound values at the loop index
`i`, build its default resolver, and feed `SameAs` edges into the
dependency graph (aborting on the graph's exceptions).  The appends shared
by all branches of the source loop body are folded into each branch here;
on the error path the partial state is discarded by `generate`, so the
difference is unobservable. -/
def genLoop (fs : List FieldDecl) (i : Nat) (st : GenState) :
    Except SpecError GenState :=
  match fs with
  | [] => .ok st
  | f :: rest =>
    match f.kind with
    | .regular =>
      genLoop rest (i + 1) { st with
        special := st.special ++ [f.name],
        field_descriptors := st.field_descriptors ++ [(f.name, f.kind)],
        resolvers := st.resolvers ++
          [match f.default with
            | none => .unset
            | some d => .fixed d],
        fitting := st.fitting ++ [f.name] }
    | .bounded mn mx =>
      genLoop rest (i + 1) { st with
        special := st.special ++ [f.name],
        field_descriptors := st.field_descriptors ++ [(f.name, f.kind)],
        set_lower := st.set_lower ++ (if mn.isFinite then [(i, mn)] else []),
        set_upper := st.set_upper ++ (if mx.isFinite then [(i, mx)] else []),
        resolvers :=
          st.resolvers ++ [.fixed (resolveDefault mn mx f.default)],
        fitting := st.fitting ++ [f.name] }
    | .const v =>
      genLoop rest (i + 1) { st with
        special := st.special ++ [f.name],
        field_descriptors := st.field_descriptors ++ [(f.name, f.kind)],
        resolvers := st.resolvers ++ [.fixed v] }
    | .sameAs dep_name =>
      match st.graph.add_dependency f.name dep_name with
      | (_, .error e) => .error e
      | (gr, .ok _) =>
        genLoop rest (i + 1) { st with
          special := st.special ++ [f.name],
          field_descriptors := st.field_descriptors ++ [(f.name, f.kind)],
          graph := gr,
          resolvers := st.resolvers ++ [.dependent ⟨f.name, dep_name⟩],
          depMap := st.depMap ++ [(f.name, ⟨f.name, dep_name⟩)] }

/-- The empty generation state over the graph of all field names. -/
def initState (fs : List FieldDecl) : GenState :=
  ⟨DepGraph.ofFields (fs.map (·.name)), [], [], [], [], [], [], []⟩

/-- `FitSpecBase.generate` (composed with `_StoredFitSpec.pin`, which only
attaches the dataclass as `clss`): run the classification loop, order the
fields via the dependency graph when edges exist, and build the dense
bounds arrays and the bounds tuple. -/
def generate (fs : List FieldDecl) : Except SpecError FitSpec := do
  let st ← genLoop fs 0 (initState fs)
  let num_special := st.special.length
  if st.resolvers.length ≠ num_special then
    .error .assertionError
  else do
    let ordered ←
      if st.graph.dependency_count > 0 then do
        if st.graph.has_closed_cycles then
          .error .circularDependencies
        else do
          let io ← st.graph.get_init_order
          let io := io.filter (fun f => decide (f ∈ st.special))
          if io.length ≠ num_special then
            .error .assertionError
          else
            pure (io, io.filterMap (fun f => st.depMap.lookup f))
      else
        pure (st.special, ([] : List DependentResolver))
    let (init_order, dep_resolvers_seq) := ordered
    let num_fitting := st.fitting.length
    let lower ← process_bounds st.set_lower num_fitting .ninf
    let upper ← process_bounds st.set_upper num_fitting .pinf
    let lb : BoundsSide :=
      match lower with
      | some a => .arr a
      | none => .scalar .ninf
    let ub : BoundsSide :=
      match upper with
      | some a => .arr a
      | none => .scalar .pinf
    .ok ⟨num_special, init_order, num_fitting, st.fitting,
      st.field_descriptors, st.resolvers, lower, upper, (lb, ub),
      dep_resolvers_seq, fs⟩

instance {e a : Type} [DecidableEq e] [DecidableEq a] :
    DecidableEq (Except e a) :=
  fun x y =>
    match x, y with
    | .ok v, .ok w =>
      if h : v = w then isTrue (by rw [h])
      else isFalse (by intro hc; cases hc; exact h rfl)
    | .error v, .error w =>
      if h : v = w then isTrue (by rw [h])
      else isFalse (by intro hc; cases hc; exact h rfl)
    | .ok _, .error _ => isFalse (by intro hc; cases hc)
    | .error _, .ok _ => isFalse (by intro hc; cases hc)

/-- An instance of the dataclass: its field values by name. -/
def Instance := List (String × EF)

instance : DecidableEq Instance :=
  inferInstanceAs (DecidableEq (List (String × EF)))

/-- One field of a dataclass construction: the keyword value if passed,
else the declared default, else `TypeError`. -/
def fieldValue (kwargs : List (String × EF)) (f : FieldDecl) :
    Except SpecError (String × EF) :=
  match kwargs.lookup f.name with
  | some v => .ok (f.name, v)
  | none =>
    match f.default with
    | some d => .ok (f.name, d)
    | none => .error .typeError

/-- Dataclass construction `clss(**kwargs)`: every keyword must name a
field, and every field takes its keyword value or, failing that, its
declared default (`TypeError` when neither exists). -/
def mkInstance (fs : List FieldDecl) (kwargs : List (String × EF)) :
    Except SpecError Instance :=
  if kwargs.all (fun kv => fs.any (fun f => f.name == kv.1)) then
    fs.mapM (fieldValue kwargs)
  else
    .error .typeError

/-- `FitSpec.create_default_fit_instance`: walk `init_order` zipped with
`default_resolvers`, calling each resolver on the dict of already-resolved
values, then construct the dataclass. -/
def create_default_fit_instance (s : FitSpec) :
    Except SpecError Instance := do
  let params ← (s.init_order.zip s.default_resolvers).foldlM
    (fun (params : List (String × EF)) p => do
      let v ← p.2.get params
      pure ((p.1, v) :: params))
    []
  mkInstance s.clss params

/-- `getattr(instance, field)`, failing with `AttributeError` when the
field is missing. -/
def getattrEF (inst : Instance) (f : String) : Except SpecError EF :=
  match inst.lookup f with
  | some v => .ok v
  | none => .error (.attributeError f)

/-- `FitSpec.instance_to_array`: check the output buffer length, then write
`getattr(instance, field)` for each fitting param in order. -/
def instance_to_array (s : FitSpec) (inst : Instance) (outLen : Nat) :
    Except SpecError (List EF) :=
  if outLen ≠ s.fitting_param_count then
    .error .shapeMismatch
  else
    s.fitting_params.mapM (getattrEF inst)

/-- One `kwargs[resolver.target] = resolver.get(kwargs)` step of
`array_to_instance`: copy the already-present value of `resolver.name`,
raising `KeyError` when it is absent. -/
def depStep (kw : List (String × EF)) (r : DependentResolver) :
    Except SpecError (List (String × EF)) :=
  match kw.lookup r.name with
  | some v => .ok ((r.target, v) :: kw)
  | none => .error (.keyError r.name)

/-- `FitSpec.array_to_instance`: check the length, seed the kwargs from the
fitting params zipped with the array, apply every dependent resolver in
order, then construct the dataclass. -/
def array_to_instance (s : FitSpec) (array : List EF) :
    Except SpecError Instance := do
  if array.length ≠ s.fitting_param_count then
    .error .shapeMismatch
  else do
    let kwargs := s.fitting_params.zip array
    let kwargs ← s.dep_resolvers.foldlM depStep kwargs
    mkInstance s.clss kwargs

/-- The depends-on relation of a graph: `(which, source)` is a stored edge. -/
def EdgeRel (g : DepGraph) (i j : Nat) : Prop := (i, j) ∈ g.edges

instance (g : DepGraph) : DecidableRel (EdgeRel g) :=
  fun i j => inferInstanceAs (Decidable ((i, j) ∈ g.edges))

/-- Edge endpoints are valid node indices. -/
def EdgesBounded (g : DepGraph) : Prop :=
  ∀ p ∈ g.edges, p.1 < g.N ∧ p.2 < g.N

instance (g : DepGraph) : Decidable (EdgesBounded g) :=
  inferInstanceAs (Decidable (∀ p ∈ g.edges, p.1 < g.N ∧ p.2 < g.N))

/-- A well-formed graph, as produced by `DepGraph.ofFields` followed by
successful `add_dependency` calls: edge endpoints are valid distinct node
indices and no edge is stored twice. -/
def WFGraph (g : DepGraph) : Prop :=
  (∀ p ∈ g.edges, p.1 < g.N ∧ p.2 < g.N ∧ p.1 ≠ p.2) ∧ g.edges.Nodup

instance (g : DepGraph) : Decidable (WFGraph g) :=
  inferInstanceAs (Decidable
    ((∀ p ∈ g.edges, p.1 < g.N ∧ p.2 < g.N ∧ p.1 ≠ p.2) ∧ g.edges.Nodup))

/-- The counter invariant of the `get_init_order` loop: each remaining
node's count is minus the number of remaining nodes it depends on. -/
def CountsInv (g : DepGraph) (counts : Nat → Int)
    (remaining : List Nat) : Prop :=
  ∀ i ∈ remaining, counts i =
    -(((remaining.filter (fun j => decide ((i, j) ∈ g.edges))).length : Int))

/-- No directed cycle: no node reaches itself by a nonempty edge path. -/
def Acyclic (g : DepGraph) : Prop :=
  ∀ i, ¬ Relation.TransGen (EdgeRel g) i i

/-- A directed cycle of length at least 2, stated as in the specification:
a closed edge walk `i → l(0) → ... → l(end) = i` with at least two edges. -/
def HasCycleGE2 (g : DepGraph) : Prop :=
  ∃ i l, 2 ≤ List.length l ∧ List.Chain (EdgeRel g) i l ∧
    l.getLast? = some i

/-- The declaration-level same-as relation of a record:
`x` is declared `SameAs y`. -/
def SameAsRel (fs : List FieldDecl) (x y : String) : Prop :=
  ∃ f ∈ fs, f.name = x ∧ f.kind = .sameAs y

/-- Whether a kind is `Const`. -/
def isConstKind : FieldKind → Bool
  | .const _ => true
  | _ => false

/-- Whether a kind is `SameAs`. -/
def isSameAsKind : FieldKind → Bool
  | .sameAs _ => true
  | _ => false

/-- Whether a kind participates in the fitting vector. -/
def isFittingKind : FieldKind → Bool
  | .regular => true
  | .bounded _ _ => true
  | _ => false

/-- The names that land in `fitting_params`: the `Regular` and `Bounded`
fields, in declaration order. -/
def fittingNames (fs : List FieldDecl) : List String :=
  fs.filterMap (fun f =>
    match f.kind with
    | .regular => some f.name
    | .bounded _ _ => some f.name
    | _ => none)

/-- The `dep_resolver_map` built by the classification loop: one
`DependentResolver` per `SameAs` field, keyed by field name, in
declaration order. -/
def depMapSpec (fs : List FieldDecl) : List (String × DependentResolver) :=
  fs.filterMap (fun f =>
    match f.kind with
    | .sameAs t => some (f.name, ⟨f.name, t⟩)
    | _ => none)

/-- Every `SameAs` declaration names an existing field other than itself
(the well-formedness the declaration layer guarantees). -/
def sameAsTargetsOk (fs : List FieldDecl) : Bool :=
  fs.all (fun f =>
    match f.kind with
    | .sameAs t =>
      decide (t ∈ fs.map (fun f2 => f2.name)) && !(f.name == t)
    | _ => true)

/-- No `SameAs` field targets a `Const` field directly. -/
def noConstTargets (fs : List FieldDecl) : Bool :=
  fs.all (fun f =>
    match f.kind with
    | .sameAs t =>
      fs.all (fun ft => !(ft.name == t) || !(isConstKind ft.kind))
    | _ => true)

/-- Every `Const` field's dataclass default is its constant value, as the
`const()` declaration helper guarantees. -/
def constDefaultsOk (fs : List FieldDecl) : Bool :=
  fs.all (fun f =>
    match f.kind with
    | .const v => f.default == some v
    | _ => true)

/-- The instance has a value for every declared field (`getattr`
succeeds). -/
def hasAllFields (inst : Instance) (fs : List FieldDecl) : Bool :=
  fs.all (fun f => (List.lookup f.name inst).isSome)

/-- Modelled from the spec's words for claim C3 (the tie-break rule):
repeatedly select the first remaining node, in declaration order, that
depends on no other remaining node.  This is the comparator the
source-level `initLoop` is proved to refine (same fuel discipline). -/
def greedyLoopF (g : DepGraph) : Nat → List Nat → List Nat
  | 0, _ => []
  | fuel + 1, remaining =>
    match remaining.find?
        (fun idx => remaining.all
          (fun j => j == idx || !(decide ((idx, j) ∈ g.edges)))) with
    | none => []
    | some idx => idx :: greedyLoopF g fuel (remaining.erase idx)

/-- The greedy selection loop at its full fuel. -/
def greedyLoop (g : DepGraph) (remaining : List Nat) : List Nat :=
  greedyLoopF g remaining.length remaining

/-- Modelled from the spec's words for claim C3: the greedy
declaration-order topological order over all node indices. -/
def specGreedyIdx (g : DepGraph) : List Nat :=
  greedyLoop g (List.range g.N)

/-- Modelled from the spec's words for claim C3: the same order as node
names. -/
def specGreedyOrder (g : DepGraph) : List String :=
  (specGreedyIdx g).map (fun i => g.fields.getD i "")

/-- Whether an error is one of the `CircularDependency` errors. -/
def SpecError.isCircular : SpecError → Bool
  | .circularDependency _ _ => true
  | .circularDependencies => true
  | _ => false

/-- The value `clss(**kwargs)` gives a field: the keyword value when
present, else the declared default (the `EF.fin 0` fallback is unreachable
in every lemma that uses this). -/
def chooseVal (kw : List (String × EF)) (f : FieldDecl) : EF :=
  match List.lookup f.name kw with
  | some v => v
  | none => f.default.getD (.fin 0)

/-- Each dependent resolver's source is available when it runs: it is a
seeded kwargs key or the target of an earlier resolver. -/
def ResolvableFrom (keys : List String) : List DependentResolver → Prop
  | [] => True
  | r :: rest => r.name ∈ keys ∧ ResolvableFrom (r.target :: keys) rest

/-- No dependent resolver's source is the target of itself or of a later
resolver (the discipline the topological `init_order` gives
`dep_resolvers`). -/
def OrderOk : List DependentResolver → Prop
  | [] => True
  | r :: rest =>
    r.name ∉ (r :: rest).map (fun r2 => r2.target) ∧ OrderOk rest

/-- A record with a `Const` field declared before a `Bounded` field
(the failing input of claim C1). -/
def recConstBounded : List FieldDecl :=
  [constF "a" (.fin 1), boundedF "b" (some (.fin 0)) (some (.fin 1)) none]

/-- A record with a `Const` field declared before a `Bounded` field and a
trailing `Regular` field: generation succeeds but the bound values land at
the wrong fitting-vector positions. -/
def recConstBoundedRegular : List FieldDecl :=
  [constF "a" (.fin 1), boundedF "b" (some (.fin 0)) (some (.fin 1)) none,
    regularF "r" none]

/-- A record whose `SameAs` field is declared before its `Const` target
(the failing input of claim C2). -/
def recSameAsConst : List FieldDecl :=
  [sameAsF "a" "b" none, constF "b" (.fin 5)]

/-- The generated specification of `recSameAsConst`. -/
def specSameAsConst : FitSpec :=
  ((generate recSameAsConst).toOption).getD
    ⟨0, [], 0, [], [], [], none, none, (.scalar .ninf, .scalar .pinf), [], []⟩

/-- A record with a `SameAs` field targeting a `Const` field (the
counterexample record of claims C4 and C10). -/
def recConstTarget : List FieldDecl :=
  [constF "c" (.fin 5), sameAsF "s" "c" none]

/-- The generated specification of `recConstTarget`. -/
def specConstTarget : FitSpec :=
  ((generate recConstTarget).toOption).getD
    ⟨0, [], 0, [], [], [], none, none, (.scalar .ninf, .scalar .pinf), [], []⟩

/-- The example record of the spec: `a: Regular`, `b: SameAs(a)`,
`c: Const(7)` (with `b` declared after `a`, so every code path is benign). -/
def recRegularSameAsConst : List FieldDecl :=
  [regularF "a" none, sameAsF "b" "a" none, constF "c" (.fin 7)]

/-- The generated specification of `recRegularSameAsConst`. -/
def specRegularSameAsConst : FitSpec :=
  ((generate recRegularSameAsConst).toOption).getD
    ⟨0, [], 0, [], [], [], none, none, (.scalar .ninf, .scalar .pinf), [], []⟩

/-- An instance of `recRegularSameAsConst` used by the round-trip witness. -/
def instRSC : Instance :=
  [("a", .fin 2), ("b", .fin 2), ("c", .fin 7)]

/-- The two-field record with the immediate `SameAs` 2-cycle of the spec's
example scenario. -/
def recTwoCycle : List FieldDecl :=
  [sameAsF "a" "b" none, sameAsF "b" "a" none]

/-- The worked dependency-graph example of the spec: fields `a, b, c, d`
with `a→b, b→d, c→a, c→d` (arrow = depends on), assembled in edge-list
form exactly as four successful `add_dependency` calls leave it. -/
def exampleGraph : DepGraph :=
  ⟨["a", "b", "c", "d"], [(0, 1), (1, 3), (2, 0), (2, 3)], 4⟩

/-- A three-node graph carrying a directed 3-cycle, as left by three
successful `add_dependency` calls. -/
def threeCycleGraph : DepGraph :=
  ⟨["a", "b", "c"], [(0, 1), (1, 2), (2, 0)], 3⟩

/-! ### Basic facts about `keyIdx` -/

theorem keyIdxAux_spec {l : List String} {i : Nat} {s : String} {j : Nat}
    (h : keyIdxAux l i s = some j) :
    ∃ k, k < l.length ∧ i + k = j ∧ l.getD k "" = s := by
  induction l generalizing i j with
  | nil => simp [keyIdxAux] at h
  | cons a rest ih =>
    rw [keyIdxAux] at h
    cases hrec : keyIdxAux rest (i + 1) s with
    | some j0 =>
      rw [hrec] at h
      cases h
      obtain ⟨k, hk, hik, hgd⟩ := ih hrec
      exact ⟨k + 1, by simpa using hk, by omega, by simpa using hgd⟩
    | none =>
      rw [hrec] at h
      by_cases ha : a = s
      · simp [ha] at h
        exact ⟨0, by simp, by omega, by simpa using ha⟩
      · simp [ha] at h

theorem keyIdxAux_isSome {l : List String} {i : Nat} {s : String} :
    (keyIdxAux l i s).isSome = true ↔ s ∈ l := by
  induction l generalizing i with
  | nil => simp [keyIdxAux]
  | cons a rest ih =>
    rw [keyIdxAux]
    cases hrec : keyIdxAux rest (i + 1) s with
    | some j0 =>
      simp only [Option.isSome_some, true_iff]
      have : s ∈ rest := by
        have := (@ih (i + 1)).mp (by simp [hrec])
        exact this
      exact List.mem_cons_of_mem _ this
    | none =>
      by_cases ha : a = s
      · simp [ha]
      · have hrest : ¬ s ∈ rest := by
          intro hmem
          have := (@ih (i + 1)).mpr hmem
          simp [hrec] at this
        simp [ha, hrest, Ne.symm ha]

theorem keyIdx_lt {g : DepGraph} {s : String} {j : Nat}
    (h : g.keyIdx s = some j) : j < g.N := by
  obtain ⟨k, hk, hik, _⟩ := keyIdxAux_spec h
  unfold DepGraph.N
  omega

theorem keyIdx_getD {g : DepGraph} {s : String} {j : Nat}
    (h : g.keyIdx s = some j) : g.fields.getD j "" = s := by
  obtain ⟨k, hk, hik, hgd⟩ := keyIdxAux_spec h
  have : k = j := by omega
  subst this
  exact hgd

theorem keyIdx_isSome {g : DepGraph} {s : String} :
    (g.keyIdx s).isSome = true ↔ s ∈ g.fields :=
  keyIdxAux_isSome

theorem keyIdx_inj {g : DepGraph} {s t : String} {j : Nat}
    (hs : g.keyIdx s = some j) (ht : g.keyIdx t = some j) : s = t := by
  have h1 := keyIdx_getD hs
  have h2 := keyIdx_getD ht
  rw [h1] at h2
  exact h2

/-! ### `add_dependency`: failure cases, idempotence, invariants -/

theorem add_dependency_self (g : DepGraph) (x : String) :
    g.add_dependency x x = (g, .error (.invalidDependency x)) := by
  simp [DepGraph.add_dependency]

theorem add_dependency_reverse {g : DepGraph} {a b : String} {ai bi : Nat}
    (hab : a ≠ b) (ha : g.keyIdx a = some ai) (hb : g.keyIdx b = some bi)
    (hfwd : (ai, bi) ∉ g.edges) (hrev : (bi, ai) ∈ g.edges) :
    g.add_dependency a b = (g, .error (.circularDependency a b)) := by
  simp [DepGraph.add_dependency, hab, ha, hb, hfwd, hrev]

theorem add_dependency_fresh {g : DepGraph} {a b : String} {ai bi : Nat}
    (hab : a ≠ b) (ha : g.keyIdx a = some ai) (hb : g.keyIdx b = some bi)
    (hfwd : (ai, bi) ∉ g.edges) (hrev : (bi, ai) ∉ g.edges) :
    g.add_dependency a b =
      ({ g with edges := g.edges ++ [(ai, bi)], numDeps := g.numDeps + 1 },
        .ok true) := by
  simp [DepGraph.add_dependency, hab, ha, hb, hfwd, hrev]

theorem add_dependency_present {g : DepGraph} {a b : String} {ai bi : Nat}
    (hab : a ≠ b) (ha : g.keyIdx a = some ai) (hb : g.keyIdx b = some bi)
    (hfwd : (ai, bi) ∈ g.edges) :
    g.add_dependency a b = (g, .ok false) := by
  simp [DepGraph.add_dependency, hab, ha, hb, hfwd]

/-- On an `ok` result the graph keeps its fields, keeps every old edge,
has the requested edge, and `numDeps` stays equal to the edge count. -/
theorem add_dependency_ok {g g2 : DepGraph} {a b : String} {r : Bool}
    (h : g.add_dependency a b = (g2, .ok r)) :
    g2.fields = g.fields ∧
    (∀ e ∈ g.edges, e ∈ g2.edges) ∧
    (∃ ai bi, g.keyIdx a = some ai ∧ g.keyIdx b = some bi ∧
      (ai, bi) ∈ g2.edges ∧ ai < g.N ∧ bi < g.N ∧ ai ≠ bi) ∧
    (g.numDeps = g.edges.length → g2.numDeps = g2.edges.length) ∧
    (g.edges.Nodup → g2.edges.Nodup) ∧
    (∀ e ∈ g2.edges, e ∈ g.edges ∨
      (∃ ai bi, g.keyIdx a = some ai ∧ g.keyIdx b = some bi ∧
        e = (ai, bi))) := by
  by_cases hab : a = b
  · rw [hab, add_dependency_self] at h
    cases h
  cases ha : g.keyIdx a with
  | none => simp [DepGraph.add_dependency, hab, ha] at h
  | some ai =>
    cases hb : g.keyIdx b with
    | none => simp [DepGraph.add_dependency, hab, ha, hb] at h
    | some bi =>
      have haibi : ai ≠ bi := fun he => hab (keyIdx_inj ha (he ▸ hb))
      by_cases hfwd : (ai, bi) ∈ g.edges
      · rw [add_dependency_present hab ha hb hfwd] at h
        cases h
        refine ⟨rfl, fun e he => he, ⟨ai, bi, rfl, rfl, hfwd,
          keyIdx_lt ha, keyIdx_lt hb, haibi⟩, fun hc => hc,
          fun hn => hn, fun e he => Or.inl he⟩
      · by_cases hrev : (bi, ai) ∈ g.edges
        · rw [add_dependency_reverse hab ha hb hfwd hrev] at h
          cases h
        · rw [add_dependency_fresh hab ha hb hfwd hrev] at h
          cases h
          refine ⟨rfl, fun e he => by simp [he], ⟨ai, bi, rfl, rfl,
            by simp, keyIdx_lt ha, keyIdx_lt hb, haibi⟩,
            fun hc => by simp [hc], fun hn => ?_, fun e he => ?_⟩
          · simpa [List.nodup_append, hfwd] using hn
          · rcases List.mem_append.mp he with h1 | h2
            · exact Or.inl h1
            · exact Or.inr ⟨ai, bi, rfl, rfl, by simpa using h2⟩

/-- Claim C7: `AddDependency(x, x)` fails with `InvalidDependency` for
every graph and field name, and `AddDependency(a, b)` fails with
`CircularDependency` for distinct node names whenever the reverse edge is
present (and, per the graph invariant, the forward edge is not); in both
failure cases the returned graph is the unchanged input, so its edges and
dependency count are unmodified. -/
theorem claim_C7 :
    (∀ (g : DepGraph) (x : String),
      g.add_dependency x x = (g, .error (.invalidDependency x))) ∧
    (∀ (g : DepGraph) (a b : String) (ai bi : Nat), a ≠ b →
      g.keyIdx a = some ai → g.keyIdx b = some bi →
      (ai, bi) ∉ g.edges → (bi, ai) ∈ g.edges →
      g.add_dependency a b = (g, .error (.circularDependency a b))) :=
  ⟨add_dependency_self,
    fun _ _ _ _ _ hab ha hb hfwd hrev =>
      add_dependency_reverse hab ha hb hfwd hrev⟩

/-- Witness for claim C7 at concrete inputs: a self-dependency on the fresh
two-node graph, and the second edge of a direct 2-cycle. -/
theorem claim_C7_witness :
    (DepGraph.ofFields ["a", "b"]).add_dependency "a" "a" =
      (DepGraph.ofFields ["a", "b"],
        .error (.invalidDependency "a")) ∧
    (DepGraph.mk ["a", "b"] [(1, 0)] 1).add_dependency "a" "b" =
      (DepGraph.mk ["a", "b"] [(1, 0)] 1,
        .error (.circularDependency "a" "b")) :=
  ⟨claim_C7.1 (DepGraph.ofFields ["a", "b"]) "a",
    claim_C7.2 (DepGraph.mk ["a", "b"] [(1, 0)] 1) "a" "b" 0 1
      (by decide) (by decide) (by decide) (by decide) (by decide)⟩

/-- Claim C8: for distinct node names with neither the edge nor its
reverse present, adding the same dependency twice returns `true` then
`false`; the second call returns the graph of the first call unchanged and
the dependency count across the two calls grows exactly once. -/
theorem claim_C8 (g : DepGraph) (a b : String) (ai bi : Nat)
    (hab : a ≠ b) (ha : g.keyIdx a = some ai) (hb : g.keyIdx b = some bi)
    (hfwd : (ai, bi) ∉ g.edges) (hrev : (bi, ai) ∉ g.edges) :
    (g.add_dependency a b).2 = .ok true ∧
    ((g.add_dependency a b).1.add_dependency a b) =
      ((g.add_dependency a b).1, .ok false) ∧
    (g.add_dependency a b).1.dependency_count = g.dependency_count + 1 ∧
    ((g.add_dependency a b).1.add_dependency a b).1.dependency_count =
      g.dependency_count + 1 := by
  have h1 := add_dependency_fresh hab ha hb hfwd hrev
  rw [h1]
  have h2 := @add_dependency_present
    (DepGraph.mk g.fields (g.edges ++ [(ai, bi)]) (g.numDeps + 1))
    a b ai bi hab ha hb (by simp)
  rw [show ({ g with
        edges := g.edges ++ [(ai, bi)],
        numDeps := g.numDeps + 1 } : DepGraph) =
      DepGraph.mk g.fields (g.edges ++ [(ai, bi)]) (g.numDeps + 1) from rfl,
    h2]
  exact ⟨rfl, rfl, rfl, rfl⟩

/-- Witness for claim C8: adding `b`-depends-on-`a` twice on the fresh
two-node graph. -/
theorem claim_C8_witness :
    ((DepGraph.ofFields ["a", "b"]).add_dependency "b" "a").2 =
      .ok true ∧
    (((DepGraph.ofFields ["a", "b"]).add_dependency "b" "a").1.add_dependency
        "b" "a") =
      ((((DepGraph.ofFields ["a", "b"]).add_dependency "b" "a").1),
        .ok false) ∧
    ((DepGraph.ofFields ["a", "b"]).add_dependency "b" "a").1.dependency_count =
      (DepGraph.ofFields ["a", "b"]).dependency_count + 1 ∧
    (((DepGraph.ofFields ["a", "b"]).add_dependency "b" "a").1.add_dependency
        "b" "a").1.dependency_count =
      (DepGraph.ofFields ["a", "b"]).dependency_count + 1 :=
  claim_C8 (DepGraph.ofFields ["a", "b"]) "b" "a" 1 0
    (by decide) (by decide) (by decide) (by decide) (by decide)

/-! ### Correctness of the cycle detector `has_closed_cycles` -/

theorem reachIter_lt {g : DepGraph} {i k j : Nat}
    (h : j ∈ g.reachIter i k) : j < g.N := by
  cases k with
  | zero =>
    unfold DepGraph.reachIter at h
    simpa using (List.mem_filter.mp h).1
  | succ k =>
    unfold DepGraph.reachIter at h
    simpa using (List.mem_filter.mp h).1

theorem reachIter_sound {g : DepGraph} {i k j : Nat}
    (h : j ∈ g.reachIter i k) : Relation.TransGen (EdgeRel g) i j := by
  induction k generalizing j with
  | zero =>
    unfold DepGraph.reachIter at h
    have := (List.mem_filter.mp h).2
    exact Relation.TransGen.single (of_decide_eq_true this)
  | succ k ih =>
    unfold DepGraph.reachIter at h
    have := of_decide_eq_true (List.mem_filter.mp h).2
    rcases this with hmem | ⟨m, hm, he⟩
    · exact ih hmem
    · exact Relation.TransGen.tail (ih hm) he

theorem reachIter_pred_lt {g : DepGraph} (hb : EdgesBounded g)
    {i k j : Nat}
    (h : (fun j => decide (j ∈ g.reachIter i k ∨
      ∃ m, m ∈ g.reachIter i k ∧ (m, j) ∈ g.edges)) j = true) :
    j < g.N := by
  have := of_decide_eq_true h
  rcases this with hmem | ⟨m, _, he⟩
  · exact reachIter_lt hmem
  · exact (hb _ he).2

theorem reachIter_sublist_succ {g : DepGraph} (hb : EdgesBounded g)
    (i k : Nat) : List.Sublist (g.reachIter i k) (g.reachIter i (k + 1)) := by
  show List.Sublist (g.reachIter i k)
    ((List.range g.N).filter (fun j => decide (j ∈ g.reachIter i k ∨
      ∃ m, m ∈ g.reachIter i k ∧ (m, j) ∈ g.edges)))
  cases k with
  | zero =>
    unfold DepGraph.reachIter
    refine List.monotone_filter_right _ (fun a ha => ?_)
    exact decide_eq_true (Or.inl (List.mem_filter.mpr
      ⟨List.mem_range.mpr (hb _ (of_decide_eq_true ha)).2, ha⟩))
  | succ m =>
    conv_lhs => unfold DepGraph.reachIter
    refine List.monotone_filter_right _ (fun a ha => ?_)
    refine decide_eq_true (Or.inl ?_)
    show a ∈ g.reachIter i (m + 1)
    unfold DepGraph.reachIter
    refine List.mem_filter.mpr ⟨List.mem_range.mpr ?_, ha⟩
    exact reachIter_pred_lt hb ha

theorem reachIter_sublist_le {g : DepGraph} (hb : EdgesBounded g)
    (i : Nat) {k m : Nat} (h : k ≤ m) :
    List.Sublist (g.reachIter i k) (g.reachIter i m) := by
  induction m with
  | zero =>
    have : k = 0 := by omega
    subst this
    exact List.Sublist.refl _
  | succ m ih =>
    by_cases hk : k = m + 1
    · subst hk
      exact List.Sublist.refl _
    · exact (ih (by omega)).trans (reachIter_sublist_succ hb i m)

theorem reachIter_stab_eq {g : DepGraph} {i k : Nat}
    (h : g.reachIter i (k + 1) = g.reachIter i k) :
    ∀ m, k ≤ m → g.reachIter i m = g.reachIter i k := by
  intro m hm
  induction m with
  | zero =>
    have : k = 0 := by omega
    subst this
    rfl
  | succ m ih =>
    by_cases hk : k = m + 1
    · subst hk
      rfl
    · have hkm : k ≤ m := by omega
      have hrec := ih hkm
      show (List.range g.N).filter (fun j => decide
        (j ∈ g.reachIter i m ∨
          ∃ x, x ∈ g.reachIter i m ∧ (x, j) ∈ g.edges)) =
        g.reachIter i k
      rw [hrec]
      exact h

theorem reachIter_exists_stable {g : DepGraph} (hb : EdgesBounded g)
    (i : Nat) :
    ∃ k, k ≤ g.N ∧ g.reachIter i (k + 1) = g.reachIter i k := by
  have hlen : ∀ k, (g.reachIter i k).length ≤ g.N := by
    intro k
    have : List.Sublist (g.reachIter i k) (List.range g.N) := by
      cases k with
      | zero => unfold DepGraph.reachIter; exact List.filter_sublist _
      | succ m => unfold DepGraph.reachIter; exact List.filter_sublist _
    simpa using this.length_le
  have main : ∀ k, (∃ m, m < k ∧
      g.reachIter i (m + 1) = g.reachIter i m) ∨
      k ≤ (g.reachIter i k).length := by
    intro k
    induction k with
    | zero => exact Or.inr (Nat.zero_le _)
    | succ k ih =>
      rcases ih with ⟨m, hm, hstab⟩ | hge
      · exact Or.inl ⟨m, by omega, hstab⟩
      · by_cases hstab : g.reachIter i (k + 1) = g.reachIter i k
        · exact Or.inl ⟨k, by omega, hstab⟩
        · refine Or.inr ?_
          have hsub := reachIter_sublist_succ hb i k
          have hlt : (g.reachIter i k).length <
              (g.reachIter i (k + 1)).length := by
            rcases Nat.lt_or_ge (g.reachIter i k).length
              (g.reachIter i (k + 1)).length with h | h
            · exact h
            · exact absurd (hsub.eq_of_length
                (Nat.le_antisymm hsub.length_le h)) (fun he => hstab he.symm)
          omega
  rcases main (g.N + 1) with ⟨m, hm, hstab⟩ | hge
  · exact ⟨m, by omega, hstab⟩
  · exact absurd (hlen (g.N + 1)) (by omega)

theorem reachIter_complete {g : DepGraph} (hb : EdgesBounded g)
    {i j : Nat} (h : Relation.TransGen (EdgeRel g) i j) :
    j ∈ g.reachIter i g.N := by
  obtain ⟨k, hk, hstab⟩ := reachIter_exists_stable hb i
  have hclosed : ∀ m j2, m ∈ g.reachIter i k → (m, j2) ∈ g.edges →
      j2 ∈ g.reachIter i k := by
    intro m j2 hm he
    rw [← hstab]
    show j2 ∈ (List.range g.N).filter (fun j => decide
      (j ∈ g.reachIter i k ∨ ∃ x, x ∈ g.reachIter i k ∧ (x, j) ∈ g.edges))
    exact List.mem_filter.mpr ⟨List.mem_range.mpr (hb _ he).2,
      decide_eq_true (Or.inr ⟨m, hm, he⟩)⟩
  have hbase : ∀ j2, (i, j2) ∈ g.edges → j2 ∈ g.reachIter i k := by
    intro j2 he
    refine (reachIter_sublist_le hb i (Nat.zero_le k)).mem ?_
    unfold DepGraph.reachIter
    exact List.mem_filter.mpr ⟨List.mem_range.mpr (hb _ he).2,
      decide_eq_true he⟩
  have hmem : j ∈ g.reachIter i k := by
    induction h with
    | single he => exact hbase _ he
    | tail hab he ih => exact hclosed _ _ ih he
  exact (reachIter_sublist_le hb i hk).mem hmem

/-- `has_closed_cycles` is `true` exactly when some node lies on a
directed cycle, for graphs whose edges use valid node indices. -/
theorem has_closed_cycles_iff {g : DepGraph} (hb : EdgesBounded g) :
    g.has_closed_cycles = true ↔
      ∃ i, Relation.TransGen (EdgeRel g) i i := by
  constructor
  · intro h
    obtain ⟨i, _, hmem⟩ := List.any_eq_true.mp h
    exact ⟨i, reachIter_sound (of_decide_eq_true hmem)⟩
  · rintro ⟨i, h⟩
    have hi : i < g.N := by
      cases h with
      | single he => exact (hb _ he).1
      | tail hab hbc => exact (hb _ hbc).2
    refine List.any_eq_true.mpr ⟨i, List.mem_range.mpr hi, ?_⟩
    exact decide_eq_true (reachIter_complete hb h)

theorem acyclic_iff_not_detected {g : DepGraph} (hb : EdgesBounded g) :
    Acyclic g ↔ g.has_closed_cycles = false := by
  constructor
  · intro h
    cases hc : g.has_closed_cycles with
    | false => rfl
    | true =>
      obtain ⟨i, hi⟩ := (has_closed_cycles_iff hb).mp hc
      exact absurd hi (h i)
  · intro h i hi
    have := (has_closed_cycles_iff hb).mpr ⟨i, hi⟩
    rw [h] at this
    cases this

/-! ### Closed walks of length at least two -/

theorem chain_transGen {r : Nat → Nat → Prop} :
    ∀ {i : Nat} {l : List Nat} (hne : l ≠ []), List.Chain r i l →
      Relation.TransGen r i (l.getLast hne) := by
  intro i l
  induction l generalizing i with
  | nil => intro hne; exact absurd rfl hne
  | cons a rest ih =>
    intro hne hch
    rcases List.chain_cons.mp hch with ⟨hra, hrest⟩
    by_cases hr : rest = []
    · subst hr
      simpa using Relation.TransGen.single hra
    · have hstep := @ih a hr hrest
      rw [List.getLast_cons hr]
      exact Relation.TransGen.head hra hstep

theorem chain_snoc {r : Nat → Nat → Prop} :
    ∀ {a : Nat} {l : List Nat} {b c : Nat}, List.Chain r a l →
      (a :: l).getLast (by simp) = b → r b c →
      List.Chain r a (l ++ [c]) := by
  intro a l
  induction l generalizing a with
  | nil =>
    intro b c _ hlast hr
    simp only [List.getLast_singleton] at hlast
    subst hlast
    simpa using hr
  | cons x rest ih =>
    intro b c hch hlast hr
    rcases List.chain_cons.mp hch with ⟨hax, hrest⟩
    have hlast2 : (x :: rest).getLast (by simp) = b := by
      rw [← hlast]
      exact (List.getLast_cons (by simp)).symm
    exact List.chain_cons.mpr ⟨hax, ih hrest hlast2 hr⟩

theorem transGen_chain {r : Nat → Nat → Prop} {a b : Nat}
    (h : Relation.TransGen r a b) :
    ∃ l, l ≠ [] ∧ List.Chain r a l ∧ l.getLast? = some b := by
  induction h with
  | @single b2 hr =>
    exact ⟨[b2], by simp, by simpa using hr, by simp⟩
  | @tail b2 c2 hab hr ih =>
    obtain ⟨l, hne, hch, hlast⟩ := ih
    have hlv : l.getLast hne = b2 :=
      Option.some.inj ((List.getLast?_eq_getLast l hne).symm.trans hlast)
    refine ⟨l ++ [c2], by simp, ?_, by simp⟩
    refine chain_snoc hch ?_ hr
    rw [List.getLast_cons hne, hlv]

theorem hasCycleGE2_iff {g : DepGraph}
    (hirr : ∀ p ∈ g.edges, p.1 ≠ p.2) :
    HasCycleGE2 g ↔ ∃ i, Relation.TransGen (EdgeRel g) i i := by
  constructor
  · rintro ⟨i, l, hlen, hch, hlast⟩
    have hne : l ≠ [] := by
      intro h
      subst h
      simp at hlen
    have := chain_transGen hne hch
    have hl : l.getLast hne = i := by
      have := (List.getLast?_eq_getLast l hne).symm.trans hlast
      exact Option.some.inj this
    exact ⟨i, hl ▸ this⟩
  · rintro ⟨i, h⟩
    obtain ⟨l, hne, hch, hlast⟩ := transGen_chain h
    refine ⟨i, l, ?_, hch, hlast⟩
    cases l with
    | nil => exact absurd rfl hne
    | cons x tl =>
      cases tl with
      | nil =>
        exfalso
        simp only [List.getLast?_singleton] at hlast
        have hx : x = i := Option.some.inj hlast
        have hedge : EdgeRel g i x := List.chain_cons.mp hch |>.1
        rw [hx] at hedge
        exact hirr _ hedge rfl
      | cons y tl2 => simp

/-! ### The topological order computed by `get_init_order` -/

theorem find?_congr {p q : Nat → Bool} :
    ∀ {l : List Nat}, (∀ x ∈ l, p x = q x) → l.find? p = l.find? q := by
  intro l
  induction l with
  | nil => intro _; rfl
  | cons a rest ih =>
    intro h
    rw [List.find?]
    rw [List.find?]
    rw [h a (by simp)]
    cases hq : q a with
    | true => rfl
    | false => exact ih (fun x hx => h x (by simp [hx]))

theorem length_filter_erase {l : List Nat} (hnd : l.Nodup) {a : Nat}
    (ha : a ∈ l) (p : Nat → Bool) :
    (p a = true →
      ((l.erase a).filter p).length + 1 = (l.filter p).length) ∧
    (¬ p a = true →
      ((l.erase a).filter p).length = (l.filter p).length) := by
  have hperm : l.Perm (a :: l.erase a) := List.perm_cons_erase ha
  have hfp := (hperm.filter p).length_eq
  constructor
  · intro hpa
    rw [List.filter_cons_of_pos hpa] at hfp
    simpa using hfp.symm
  · intro hpa
    rw [List.filter_cons_of_neg (by simpa using hpa)] at hfp
    exact hfp.symm

/-- In an acyclic graph every nonempty set of nodes has a member with no
out-edge into the set (the node `get_init_order` can select next). -/
theorem exists_sink_aux {g : DepGraph} (hacy : Acyclic g) :
    ∀ (n : Nat) (s : List Nat), s.length ≤ n → s ≠ [] →
      ∃ a, a ∈ s ∧ ∀ b ∈ s, ¬ EdgeRel g a b := by
  intro n
  induction n with
  | zero =>
    intro s hlen hne
    cases s with
    | nil => exact absurd rfl hne
    | cons x tl => simp at hlen
  | succ n ih =>
    intro s hlen hne
    classical
    obtain ⟨a0, ha0⟩ : ∃ a0, a0 ∈ s := ⟨s.head hne, List.head_mem hne⟩
    by_cases hsink : ∀ b ∈ s, ¬ EdgeRel g a0 b
    · exact ⟨a0, ha0, hsink⟩
    · push_neg at hsink
      obtain ⟨b0, hb0s, hb0e⟩ := hsink
      set t := s.filter
        (fun x => decide (Relation.ReflTransGen (EdgeRel g) b0 x)) with ht
      have htsub : ∀ x ∈ t, x ∈ s := fun x hx => (List.mem_filter.mp hx).1
      have hb0t : b0 ∈ t := List.mem_filter.mpr
        ⟨hb0s, decide_eq_true Relation.ReflTransGen.refl⟩
      have ha0t : a0 ∉ t := by
        intro hmem
        have hreach := of_decide_eq_true (List.mem_filter.mp hmem).2
        exact hacy a0 (Relation.TransGen.head' hb0e hreach)
      have htlen : t.length < s.length := by
        have hsub : List.Sublist t s := List.filter_sublist _
        rcases Nat.lt_or_ge t.length s.length with h | h
        · exact h
        · have : t = s := hsub.eq_of_length
            (Nat.le_antisymm hsub.length_le h)
          rw [this] at ha0t
          exact absurd ha0 ha0t
      obtain ⟨a, hat, hasink⟩ := ih t (by omega)
        (List.ne_nil_of_mem hb0t)
      refine ⟨a, htsub a hat, fun b hb he => ?_⟩
      have hreacha := of_decide_eq_true (List.mem_filter.mp hat).2
      have hbt : b ∈ t := List.mem_filter.mpr
        ⟨hb, decide_eq_true (Relation.ReflTransGen.tail hreacha he)⟩
      exact hasink b hbt he

theorem exists_sink {g : DepGraph} (hacy : Acyclic g) (s : List Nat)
    (hne : s ≠ []) : ∃ a, a ∈ s ∧ ∀ b ∈ s, ¬ EdgeRel g a b :=
  exists_sink_aux hacy s.length s le_rfl hne

theorem countsInv_elig {g : DepGraph} {counts : Nat → Int}
    {remaining : List Nat} (hinv : CountsInv g counts remaining)
    (hirr : ∀ p ∈ g.edges, p.1 ≠ p.2) {idx : Nat} (hidx : idx ∈ remaining) :
    (counts idx == 0) =
      remaining.all (fun j => j == idx || !(decide ((idx, j) ∈ g.edges))) := by
  have hc := hinv idx hidx
  by_cases hz : (remaining.filter
      (fun j => decide ((idx, j) ∈ g.edges))).length = 0
  · have hle : counts idx = 0 := by rw [hc, hz]; rfl
    have hall : remaining.all
        (fun j => j == idx || !(decide ((idx, j) ∈ g.edges))) = true := by
      rw [List.all_eq_true]
      intro j hj
      have hnot : ¬ (idx, j) ∈ g.edges := by
        intro he
        have : j ∈ remaining.filter
            (fun j => decide ((idx, j) ∈ g.edges)) :=
          List.mem_filter.mpr ⟨hj, decide_eq_true he⟩
        rw [List.length_eq_zero] at hz
        rw [hz] at this
        cases this
      simp [hnot]
    rw [hall, hle]
    rfl
  · have hne : counts idx ≠ 0 := by
      rw [hc]
      intro hcon
      omega
    have hfalse : (counts idx == 0) = false := by
      simpa using hne
    obtain ⟨j, hjmem⟩ : ∃ j, j ∈ remaining.filter
        (fun j => decide ((idx, j) ∈ g.edges)) := by
      cases hl : remaining.filter (fun j => decide ((idx, j) ∈ g.edges)) with
      | nil => rw [hl] at hz; simp at hz
      | cons x tl => exact ⟨x, by simp⟩
    have hjrem := (List.mem_filter.mp hjmem).1
    have hje := of_decide_eq_true (List.mem_filter.mp hjmem).2
    have hji : ¬ (j == idx || !(decide ((idx, j) ∈ g.edges))) = true := by
      have hjne : j ≠ idx := fun he => hirr _ hje (by simp [he])
      simp [hjne, hje]
    have hallf : remaining.all
        (fun j => j == idx || !(decide ((idx, j) ∈ g.edges))) = false := by
      rcases hall : remaining.all
        (fun j => j == idx || !(decide ((idx, j) ∈ g.edges))) with _ | _
      · rfl
      · exact absurd (List.all_eq_true.mp hall j hjrem) hji
    rw [hfalse, hallf]

theorem countsInv_step {g : DepGraph} {counts : Nat → Int}
    {remaining : List Nat} (hnd : remaining.Nodup)
    (hinv : CountsInv g counts remaining) {idx : Nat}
    (hidx : idx ∈ remaining) :
    CountsInv g (decStep g counts remaining idx) (remaining.erase idx) := by
  intro i hi
  have hirem : i ∈ remaining := List.mem_of_mem_erase hi
  have hc := hinv i hirem
  have hfe := length_filter_erase hnd hidx
    (fun j => decide ((i, j) ∈ g.edges))
  by_cases he : (i, idx) ∈ g.edges
  · have h1 := hfe.1 (decide_eq_true he)
    unfold decStep
    rw [if_pos ⟨hirem, he⟩, hc]
    omega
  · have h2 := hfe.2 (by simpa using he)
    unfold decStep
    rw [if_neg (by
      intro hcon
      exact he hcon.2), hc]
    omega

theorem initLoopF_eq_greedy {g : DepGraph}
    (hirr : ∀ p ∈ g.edges, p.1 ≠ p.2) :
    ∀ (n : Nat) (remaining : List Nat) (counts : Nat → Int),
      remaining.Nodup → CountsInv g counts remaining →
      initLoopF g n counts remaining = greedyLoopF g n remaining := by
  intro n
  induction n with
  | zero => intro remaining counts hnd hinv; rfl
  | succ n ih =>
    intro remaining counts hnd hinv
    have hfind : remaining.find? (fun idx => counts idx == 0) =
        remaining.find? (fun idx => remaining.all
          (fun j => j == idx || !(decide ((idx, j) ∈ g.edges)))) :=
      find?_congr (fun x hx => countsInv_elig hinv hirr hx)
    show (match remaining.find? (fun idx => counts idx == 0) with
      | none => ([] : List Nat)
      | some idx => idx :: initLoopF g n (decStep g counts remaining idx)
          (remaining.erase idx)) =
      (match remaining.find? (fun idx => remaining.all
          (fun j => j == idx || !(decide ((idx, j) ∈ g.edges)))) with
      | none => ([] : List Nat)
      | some idx => idx :: greedyLoopF g n (remaining.erase idx))
    rw [hfind]
    cases hf : remaining.find? (fun idx => remaining.all
        (fun j => j == idx || !(decide ((idx, j) ∈ g.edges)))) with
    | none => rfl
    | some idx =>
      have hidx : idx ∈ remaining := List.mem_of_find?_eq_some hf
      show idx :: initLoopF g n (decStep g counts remaining idx)
          (remaining.erase idx) =
        idx :: greedyLoopF g n (remaining.erase idx)
      rw [ih (remaining.erase idx) (decStep g counts remaining idx)
        (hnd.erase idx) (countsInv_step hnd hinv hidx)]

theorem initLoop_eq_greedy {g : DepGraph}
    (hirr : ∀ p ∈ g.edges, p.1 ≠ p.2) (remaining : List Nat)
    (counts : Nat → Int) (hnd : remaining.Nodup)
    (hinv : CountsInv g counts remaining) :
    initLoop g counts remaining = greedyLoop g remaining :=
  initLoopF_eq_greedy hirr remaining.length remaining counts hnd hinv

theorem greedyLoopF_perm {g : DepGraph} (hacy : Acyclic g) :
    ∀ (n : Nat) (remaining : List Nat), remaining.length ≤ n →
      remaining.Nodup → (greedyLoopF g n remaining).Perm remaining := by
  intro n
  induction n with
  | zero =>
    intro remaining hlen hnd
    have : remaining = [] := by
      cases remaining with
      | nil => rfl
      | cons x tl => simp at hlen
    subst this
    exact List.Perm.nil
  | succ n ih =>
    intro remaining hlen hnd
    by_cases hne : remaining = []
    · subst hne
      exact List.Perm.nil
    · obtain ⟨a, ha, hasink⟩ := exists_sink hacy remaining hne
      have hsat : (fun idx => remaining.all
          (fun j => j == idx || !(decide ((idx, j) ∈ g.edges)))) a = true := by
        rw [List.all_eq_true]
        intro j hj
        have hnj : (a, j) ∉ g.edges := hasink j hj
        simp [hnj]
      have hfind : ∃ idx, remaining.find? (fun idx => remaining.all
          (fun j => j == idx || !(decide ((idx, j) ∈ g.edges)))) =
            some idx := by
        cases hf : remaining.find? (fun idx => remaining.all
            (fun j => j == idx || !(decide ((idx, j) ∈ g.edges)))) with
        | none => exact absurd hsat (List.find?_eq_none.mp hf a ha)
        | some idx => exact ⟨idx, rfl⟩
      obtain ⟨idx, hf⟩ := hfind
      have hidx : idx ∈ remaining := List.mem_of_find?_eq_some hf
      show (match remaining.find? (fun idx => remaining.all
          (fun j => j == idx || !(decide ((idx, j) ∈ g.edges)))) with
        | none => ([] : List Nat)
        | some idx => idx :: greedyLoopF g n (remaining.erase idx)).Perm
        remaining
      rw [hf]
      have hlen2 : (remaining.erase idx).length ≤ n := by
        have := List.length_erase_of_mem hidx
        have := List.length_pos.mpr (List.ne_nil_of_mem hidx)
        omega
      have hrec := ih (remaining.erase idx) hlen2 (hnd.erase idx)
      exact (hrec.cons idx).trans (List.perm_cons_erase hidx).symm

theorem greedyLoopF_topo {g : DepGraph} (hacy : Acyclic g)
    (hirr : ∀ p ∈ g.edges, p.1 ≠ p.2) :
    ∀ (n : Nat) (remaining : List Nat), remaining.length ≤ n →
      remaining.Nodup → ∀ a b, EdgeRel g a b → a ∈ remaining →
      b ∈ remaining →
      (greedyLoopF g n remaining).indexOf b <
        (greedyLoopF g n remaining).indexOf a := by
  intro n
  induction n with
  | zero =>
    intro remaining hlen hnd a b he ha hb
    cases remaining with
    | nil => cases ha
    | cons x tl => simp at hlen
  | succ n ih =>
    intro remaining hlen hnd a b he ha hb
    have hne : remaining ≠ [] := List.ne_nil_of_mem ha
    cases hf : remaining.find? (fun idx => remaining.all
        (fun j => j == idx || !(decide ((idx, j) ∈ g.edges)))) with
    | none =>
      obtain ⟨s, hs, hssink⟩ := exists_sink hacy remaining hne
      have hsat : (fun idx => remaining.all
          (fun j => j == idx || !(decide ((idx, j) ∈ g.edges)))) s = true := by
        rw [List.all_eq_true]
        intro j hj
        have hnj : (s, j) ∉ g.edges := hssink j hj
        simp [hnj]
      exact absurd hsat (List.find?_eq_none.mp hf s hs)
    | some idx =>
      have hidx : idx ∈ remaining := List.mem_of_find?_eq_some hf
      have hsat := List.find?_some hf
      have helig : ∀ j ∈ remaining, j = idx ∨ ¬ (idx, j) ∈ g.edges := by
        intro j hj
        have := List.all_eq_true.mp hsat j hj
        rcases Bool.or_eq_true_iff.mp this with h1 | h2
        · exact Or.inl (by simpa using h1)
        · exact Or.inr (by simpa using h2)
      have hgoal : (greedyLoopF g (n + 1) remaining) =
          idx :: greedyLoopF g n (remaining.erase idx) := by
        show (match remaining.find? (fun idx => remaining.all
            (fun j => j == idx || !(decide ((idx, j) ∈ g.edges)))) with
          | none => ([] : List Nat)
          | some idx => idx :: greedyLoopF g n (remaining.erase idx)) =
          idx :: greedyLoopF g n (remaining.erase idx)
        rw [hf]
      rw [hgoal]
      have haidx : a ≠ idx := by
        intro hcon
        subst hcon
        rcases helig b hb with h1 | h2
        · subst h1
          exact hirr _ he rfl
        · exact h2 he
      have hlen2 : (remaining.erase idx).length ≤ n := by
        have := List.length_erase_of_mem hidx
        have := List.length_pos.mpr (List.ne_nil_of_mem hidx)
        omega
      by_cases hbidx : b = idx
      · subst hbidx
        rw [List.indexOf_cons_self]
        rw [List.indexOf_cons_ne _ (Ne.symm haidx)]
        exact Nat.succ_pos _
      · have hain : a ∈ remaining.erase idx :=
          (List.mem_erase_of_ne haidx).mpr ha
        have hbin : b ∈ remaining.erase idx :=
          (List.mem_erase_of_ne hbidx).mpr hb
        have hrec := ih (remaining.erase idx) hlen2 (hnd.erase idx)
          a b he hain hbin
        rw [List.indexOf_cons_ne _ (Ne.symm hbidx),
          List.indexOf_cons_ne _ (Ne.symm haidx)]
        omega

/-- With no stored edges the detector reaches nothing. -/
theorem reachIter_no_edges {g : DepGraph} (he : g.edges = []) (i k : Nat) :
    g.reachIter i k = [] := by
  induction k with
  | zero =>
    unfold DepGraph.reachIter
    rw [List.filter_eq_nil_iff]
    intro j hj
    simp [he]
  | succ k ih =>
    unfold DepGraph.reachIter
    rw [List.filter_eq_nil_iff]
    intro j hj
    simp [he, ih]

theorem has_closed_cycles_no_edges {g : DepGraph} (he : g.edges = []) :
    g.has_closed_cycles = false := by
  unfold DepGraph.has_closed_cycles
  rw [List.any_eq_false]
  intro i hi
  simp [reachIter_no_edges he]

theorem initLoopF_no_edges {g : DepGraph} (he : g.edges = []) :
    ∀ (n : Nat) (remaining : List Nat), remaining.length ≤ n →
      initLoopF g n g.rowSum remaining = remaining := by
  have hzero : ∀ i, g.rowSum i = 0 := by
    intro i
    unfold DepGraph.rowSum
    rw [he]
    rfl
  intro n
  induction n with
  | zero =>
    intro remaining hlen
    cases remaining with
    | nil => rfl
    | cons a tl => simp at hlen
  | succ n ih =>
    intro remaining hlen
    cases remaining with
    | nil => rfl
    | cons a tl =>
      have hfind : (a :: tl).find? (fun idx => g.rowSum idx == 0) =
          some a := by
        rw [List.find?]
        rw [hzero a]
        rfl
      show (match (a :: tl).find? (fun idx => g.rowSum idx == 0) with
        | none => ([] : List Nat)
        | some idx => idx :: initLoopF g n
            (decStep g g.rowSum (a :: tl) idx) ((a :: tl).erase idx)) =
        a :: tl
      rw [hfind]
      have hdec : decStep g g.rowSum (a :: tl) a = g.rowSum := by
        funext i
        unfold decStep
        rw [if_neg (by
          intro hcon
          rw [he] at hcon
          cases hcon.2)]
      show a :: initLoopF g n (decStep g g.rowSum (a :: tl) a)
          ((a :: tl).erase a) = a :: tl
      rw [List.erase_cons_head, hdec, ih tl (by simpa using hlen)]

theorem initLoop_no_edges {g : DepGraph} (he : g.edges = []) :
    ∀ (remaining : List Nat),
      initLoop g g.rowSum remaining = remaining :=
  fun remaining => initLoopF_no_edges he remaining.length remaining le_rfl

theorem map_getD_range (l : List String) :
    (List.range l.length).map (fun i => l.getD i "") = l := by
  apply List.ext_getElem
  · simp
  · intro i h1 h2
    simp only [List.getElem_map, List.getElem_range]
    exact List.getD_eq_getElem l "" h2

/-- The row sums seeded into the loop satisfy the counter invariant over
the full node-index range. -/
theorem rowSum_countsInv {g : DepGraph} (hnd : g.edges.Nodup)
    (hb : EdgesBounded g) : CountsInv g g.rowSum (List.range g.N) := by
  intro i _
  unfold DepGraph.rowSum
  have hcount : g.edges.countP (fun e => e.1 == i) =
      ((List.range g.N).filter (fun j => decide ((i, j) ∈ g.edges))).length := by
    rw [List.countP_eq_length_filter]
    set s := (g.edges.filter (fun e => e.1 == i)).map Prod.snd with hs
    have hlens : (g.edges.filter (fun e => e.1 == i)).length = s.length := by
      rw [hs, List.length_map]
    have hsnodup : s.Nodup := by
      rw [hs]
      refine (List.Nodup.filter _ hnd).map_on ?_
      intro x hx y hy hxy
      have hx1 : x.1 = i := by simpa using (List.mem_filter.mp hx).2
      have hy1 : y.1 = i := by simpa using (List.mem_filter.mp hy).2
      cases x
      cases y
      simp only at hx1 hy1 hxy
      simp [hx1, hy1, hxy]
    have hmem : ∀ j, j ∈ s ↔ (i, j) ∈ g.edges := by
      intro j
      rw [hs]
      constructor
      · intro hj
        obtain ⟨e, hef, hej⟩ := List.mem_map.mp hj
        have he1 : e.1 = i := by simpa using (List.mem_filter.mp hef).2
        have := (List.mem_filter.mp hef).1
        have : (e.1, e.2) ∈ g.edges := by simpa using this
        rw [he1, hej] at this
        exact this
      · intro hj
        exact List.mem_map.mpr ⟨(i, j),
          List.mem_filter.mpr ⟨hj, by simp⟩, rfl⟩
    have hssub : ∀ j ∈ s, j < g.N := by
      intro j hj
      exact (hb _ ((hmem j).mp hj)).2
    have hfilterperm : ((List.range g.N).filter
        (fun j => decide ((i, j) ∈ g.edges))).Perm s := by
      refine List.perm_of_nodup_nodup_toFinset_eq
        (List.Nodup.filter _ (List.nodup_range _)) hsnodup ?_
      ext x
      simp only [List.mem_toFinset, List.mem_filter, List.mem_range,
        decide_eq_true_eq]
      constructor
      · intro ⟨_, hx⟩
        exact (hmem x).mpr hx
      · intro hx
        exact ⟨hssub x hx, (hmem x).mp hx⟩
    rw [hlens, hfilterperm.length_eq]
  rw [hcount]

/-- Under the graph invariants and acyclicity, `get_init_order` succeeds
and returns exactly the greedy declaration-order topological sort. -/
theorem get_init_order_eq_greedy {g : DepGraph} (hwf : WFGraph g)
    (hacy : Acyclic g) :
    g.get_init_order = .ok (specGreedyOrder g) := by
  have hb : EdgesBounded g := fun p hp => ⟨(hwf.1 p hp).1, (hwf.1 p hp).2.1⟩
  have hirr : ∀ p ∈ g.edges, p.1 ≠ p.2 := fun p hp => (hwf.1 p hp).2.2
  unfold DepGraph.get_init_order
  rw [(acyclic_iff_not_detected hb).mp hacy]
  unfold specGreedyOrder specGreedyIdx
  rw [initLoop_eq_greedy hirr (List.range g.N) g.rowSum
    (List.nodup_range _) (rowSum_countsInv hwf.2 hb)]
  rfl

/-- Claim C3: for every well-formed acyclic dependency graph,
`get_init_order` succeeds and returns the order obtained by repeatedly
selecting the first remaining node, in declaration order, that depends on
no other remaining node; that order is a permutation of all nodes in which
every node appears after every node it depends on; and with zero nodes or
zero edges the result is the declaration order unchanged. -/
theorem claim_C3 (g : DepGraph) (hwf : WFGraph g) (hacy : Acyclic g) :
    g.get_init_order = .ok (specGreedyOrder g) ∧
    specGreedyOrder g =
      (specGreedyIdx g).map (fun i => g.fields.getD i "") ∧
    (specGreedyIdx g).Perm (List.range g.N) ∧
    (∀ p ∈ g.edges,
      (specGreedyIdx g).indexOf p.2 < (specGreedyIdx g).indexOf p.1) ∧
    (g.edges = [] → g.get_init_order = .ok g.fields) := by
  have hb : EdgesBounded g := fun p hp => ⟨(hwf.1 p hp).1, (hwf.1 p hp).2.1⟩
  have hirr : ∀ p ∈ g.edges, p.1 ≠ p.2 := fun p hp => (hwf.1 p hp).2.2
  refine ⟨get_init_order_eq_greedy hwf hacy, rfl, ?_, ?_, ?_⟩
  · exact greedyLoopF_perm hacy (List.range g.N).length _ le_rfl
      (List.nodup_range _)
  · intro p hp
    exact greedyLoopF_topo hacy hirr (List.range g.N).length _ le_rfl
      (List.nodup_range _) p.1 p.2 hp
      (List.mem_range.mpr (hb _ hp).1) (List.mem_range.mpr (hb _ hp).2)
  · intro he
    unfold DepGraph.get_init_order
    rw [has_closed_cycles_no_edges he]
    rw [if_neg (by simp)]
    rw [initLoop_no_edges he]
    rw [show (List.range g.N) = List.range g.fields.length from rfl,
      map_getD_range]

/-- Witness for claim C3 at the worked example of the spec
(`a→b, b→d, c→a, c→d`), whose expected order is `[d, b, a, c]`. -/
theorem claim_C3_witness :
    (exampleGraph.get_init_order = .ok (specGreedyOrder exampleGraph) ∧
      specGreedyOrder exampleGraph = (specGreedyIdx exampleGraph).map
        (fun i => exampleGraph.fields.getD i "") ∧
      (specGreedyIdx exampleGraph).Perm (List.range exampleGraph.N) ∧
      (∀ p ∈ exampleGraph.edges,
        (specGreedyIdx exampleGraph).indexOf p.2 <
          (specGreedyIdx exampleGraph).indexOf p.1) ∧
      (exampleGraph.edges = [] →
        exampleGraph.get_init_order = .ok exampleGraph.fields)) ∧
    exampleGraph.get_init_order = .ok ["d", "b", "a", "c"] :=
  ⟨claim_C3 exampleGraph (by decide)
    ((acyclic_iff_not_detected (by decide)).mpr (by decide)),
  by decide⟩

/-- Claim C6: for every well-formed graph, `has_closed_cycles` is `true`
iff the graph has a directed cycle of length at least 2; and whenever such
a cycle exists (in particular one of length 3 or more assembled from
successful `add_dependency` calls), `has_closed_cycles` is `true` and
`get_init_order` fails with the `CircularDependency` error. -/
theorem claim_C6 (g : DepGraph) (hwf : WFGraph g) :
    (g.has_closed_cycles = true ↔ HasCycleGE2 g) ∧
    (HasCycleGE2 g → g.has_closed_cycles = true ∧
      g.get_init_order = .error .circularDependencies) := by
  have hb : EdgesBounded g := fun p hp => ⟨(hwf.1 p hp).1, (hwf.1 p hp).2.1⟩
  have hirr : ∀ p ∈ g.edges, p.1 ≠ p.2 := fun p hp => (hwf.1 p hp).2.2
  have hiff : g.has_closed_cycles = true ↔ HasCycleGE2 g := by
    rw [has_closed_cycles_iff hb, hasCycleGE2_iff hirr]
  refine ⟨hiff, fun hcyc => ?_⟩
  have hdet := hiff.mpr hcyc
  refine ⟨hdet, ?_⟩
  unfold DepGraph.get_init_order
  rw [hdet]
  rfl

/-- Witness for claim C6 on the assembled 3-cycle graph, with its cycle
`0 → 1 → 2 → 0` supplied explicitly. -/
theorem claim_C6_witness :
    ((threeCycleGraph.has_closed_cycles = true ↔
        HasCycleGE2 threeCycleGraph) ∧
      (HasCycleGE2 threeCycleGraph →
        threeCycleGraph.has_closed_cycles = true ∧
        threeCycleGraph.get_init_order =
          .error .circularDependencies)) ∧
    threeCycleGraph.has_closed_cycles = true ∧
    threeCycleGraph.get_init_order = .error .circularDependencies :=
  ⟨claim_C6 threeCycleGraph (by decide),
    (claim_C6 threeCycleGraph (by decide)).2
      ⟨0, [1, 2, 0], by decide,
        List.Chain.cons (show EdgeRel threeCycleGraph 0 1 by decide)
          (List.Chain.cons (show EdgeRel threeCycleGraph 1 2 by decide)
            (List.Chain.cons (show EdgeRel threeCycleGraph 2 0 by decide)
              List.Chain.nil)),
        by decide⟩⟩

/-! ### Characterization of the classification loop of `generate` -/

theorem keyIdx_congr {g1 g2 : DepGraph} (h : g1.fields = g2.fields)
    (s : String) : g1.keyIdx s = g2.keyIdx s := by
  unfold DepGraph.keyIdx
  rw [h]

theorem add_dependency_error {g g2 : DepGraph} {a b : String}
    {e : SpecError} (h : g.add_dependency a b = (g2, .error e))
    (hab : a ≠ b) (ha : (g.keyIdx a).isSome) (hb : (g.keyIdx b).isSome) :
    e = .circularDependency a b ∧ g2 = g := by
  cases hka : g.keyIdx a with
  | none => rw [hka] at ha; cases ha
  | some ai =>
    cases hkb : g.keyIdx b with
    | none => rw [hkb] at hb; cases hb
    | some bi =>
      by_cases hfwd : (ai, bi) ∈ g.edges
      · rw [add_dependency_present hab hka hkb hfwd] at h
        cases h
      · by_cases hrev : (bi, ai) ∈ g.edges
        · rw [add_dependency_reverse hab hka hkb hfwd hrev] at h
          have h1 := congrArg Prod.fst h
          have h2 := congrArg Prod.snd h
          simp only [Except.error.injEq] at h2
          exact ⟨h2.symm, h1.symm⟩
        · rw [add_dependency_fresh hab hka hkb hfwd hrev] at h
          cases h

theorem genLoop_ok :
    ∀ (fs : List FieldDecl) (i : Nat) (st st2 : GenState),
      genLoop fs i st = .ok st2 →
      st2.special = st.special ++ fs.map (fun f => f.name) ∧
      st2.fitting = st.fitting ++ fittingNames fs ∧
      st2.resolvers.length = st.resolvers.length + fs.length ∧
      st2.depMap = st.depMap ++ depMapSpec fs ∧
      st2.graph.fields = st.graph.fields ∧
      (∀ e ∈ st.graph.edges, e ∈ st2.graph.edges) ∧
      (∀ f ∈ fs, ∀ t, f.kind = .sameAs t →
        ∃ ai bi, st.graph.keyIdx f.name = some ai ∧
          st.graph.keyIdx t = some bi ∧ (ai, bi) ∈ st2.graph.edges) ∧
      (∀ e ∈ st2.graph.edges, e ∈ st.graph.edges ∨
        ∃ f, f ∈ fs ∧ ∃ t, f.kind = .sameAs t ∧
          st.graph.keyIdx f.name = some e.1 ∧
          st.graph.keyIdx t = some e.2) ∧
      (st.graph.numDeps = st.graph.edges.length →
        st2.graph.numDeps = st2.graph.edges.length) ∧
      (WFGraph st.graph → WFGraph st2.graph) := by
  intro fs
  induction fs with
  | nil =>
    intro i st st2 h
    have hst : st2 = st := by
      cases h
      rfl
    subst hst
    refine ⟨by simp, by simp [fittingNames], by simp, by
      simp [depMapSpec], rfl, fun e he => he, by simp, fun e he =>
      Or.inl he, fun hc => hc, fun hw => hw⟩
  | cons f rest ih =>
    intro i st st2 h
    rw [genLoop] at h
    cases hk : f.kind with
    | regular =>
      rw [hk] at h
      have h2 : genLoop rest (i + 1) { st with
          special := st.special ++ [f.name],
          field_descriptors := st.field_descriptors ++ [(f.name, .regular)],
          resolvers := st.resolvers ++
            [match f.default with
              | none => DefaultResolver.unset
              | some d => DefaultResolver.fixed d],
          fitting := st.fitting ++ [f.name] } = .ok st2 := h
      obtain ⟨c1, c2, c3, c4, c5, c6, c7, c8, c9, c10⟩ := ih (i + 1) _ _ h2
      refine ⟨by simpa [List.append_assoc] using c1,
        by simpa [fittingNames, hk, List.append_assoc] using c2,
        by simp only [List.length_append, List.length_cons,
          List.length_nil] at c3 ⊢; omega,
        by simpa [depMapSpec, hk, List.append_assoc] using c4,
        c5, c6, ?_, ?_, c9, c10⟩
      · intro f2 hf2 t ht
        rcases List.mem_cons.mp hf2 with hf2 | hf2
        · subst hf2
          rw [hk] at ht
          cases ht
        · exact c7 f2 hf2 t ht
      · intro e he
        rcases c8 e he with h1 | ⟨f2, hf2, t, ht, hk1, hk2⟩
        · exact Or.inl h1
        · exact Or.inr ⟨f2, List.mem_cons_of_mem _ hf2, t, ht, hk1, hk2⟩
    | bounded mn mx =>
      rw [hk] at h
      have h2 : genLoop rest (i + 1) { st with
          special := st.special ++ [f.name],
          field_descriptors :=
            st.field_descriptors ++ [(f.name, .bounded mn mx)],
          set_lower :=
            st.set_lower ++ (if mn.isFinite then [(i, mn)] else []),
          set_upper :=
            st.set_upper ++ (if mx.isFinite then [(i, mx)] else []),
          resolvers := st.resolvers ++
            [.fixed (resolveDefault mn mx f.default)],
          fitting := st.fitting ++ [f.name] } = .ok st2 := h
      obtain ⟨c1, c2, c3, c4, c5, c6, c7, c8, c9, c10⟩ := ih (i + 1) _ _ h2
      refine ⟨by simpa [List.append_assoc] using c1,
        by simpa [fittingNames, hk, List.append_assoc] using c2,
        by simp only [List.length_append, List.length_cons,
          List.length_nil] at c3 ⊢; omega,
        by simpa [depMapSpec, hk, List.append_assoc] using c4,
        c5, c6, ?_, ?_, c9, c10⟩
      · intro f2 hf2 t ht
        rcases List.mem_cons.mp hf2 with hf2 | hf2
        · subst hf2
          rw [hk] at ht
          cases ht
        · exact c7 f2 hf2 t ht
      · intro e he
        rcases c8 e he with h1 | ⟨f2, hf2, t, ht, hk1, hk2⟩
        · exact Or.inl h1
        · exact Or.inr ⟨f2, List.mem_cons_of_mem _ hf2, t, ht, hk1, hk2⟩
    | const v =>
      rw [hk] at h
      have h2 : genLoop rest (i + 1) { st with
          special := st.special ++ [f.name],
          field_descriptors := st.field_descriptors ++ [(f.name, .const v)],
          resolvers := st.resolvers ++ [.fixed v] } = .ok st2 := h
      obtain ⟨c1, c2, c3, c4, c5, c6, c7, c8, c9, c10⟩ := ih (i + 1) _ _ h2
      refine ⟨by simpa [List.append_assoc] using c1,
        by simpa [fittingNames, hk] using c2,
        by simp only [List.length_append, List.length_cons,
          List.length_nil] at c3 ⊢; omega,
        by simpa [depMapSpec, hk] using c4,
        c5, c6, ?_, ?_, c9, c10⟩
      · intro f2 hf2 t ht
        rcases List.mem_cons.mp hf2 with hf2 | hf2
        · subst hf2
          rw [hk] at ht
          cases ht
        · exact c7 f2 hf2 t ht
      · intro e he
        rcases c8 e he with h1 | ⟨f2, hf2, t, ht, hk1, hk2⟩
        · exact Or.inl h1
        · exact Or.inr ⟨f2, List.mem_cons_of_mem _ hf2, t, ht, hk1, hk2⟩
    | sameAs dep_name =>
      rw [hk] at h
      have hm : (match st.graph.add_dependency f.name dep_name with
          | (_, .error e) => (Except.error e : Except SpecError GenState)
          | (gr, .ok _) =>
            genLoop rest (i + 1) { st with
              special := st.special ++ [f.name],
              field_descriptors := st.field_descriptors ++
                [(f.name, FieldKind.sameAs dep_name)],
              graph := gr,
              resolvers := st.resolvers ++
                [DefaultResolver.dependent
                  (DependentResolver.mk f.name dep_name)],
              depMap := st.depMap ++
                [(f.name, DependentResolver.mk f.name dep_name)] }) =
          .ok st2 := h
      cases hadd : st.graph.add_dependency f.name dep_name with
      | mk gr res =>
        rw [hadd] at hm
        cases res with
        | error e2 =>
          have h3 : (Except.error e2 : Except SpecError GenState) =
              .ok st2 := hm
          cases h3
        | ok rb =>
          have h2 : genLoop rest (i + 1) { st with
              special := st.special ++ [f.name],
              field_descriptors :=
                st.field_descriptors ++ [(f.name, .sameAs dep_name)],
              graph := gr,
              resolvers := st.resolvers ++
                [.dependent ⟨f.name, dep_name⟩],
              depMap := st.depMap ++ [(f.name, ⟨f.name, dep_name⟩)] } =
              .ok st2 := hm
          obtain ⟨c1, c2, c3, c4, c5, c6, c7, c8, c9, c10⟩ :=
            ih (i + 1) _ _ h2
          obtain ⟨a1, a2, ⟨ai, bi, ak1, ak2, ak3, ak4, ak5, ak6⟩,
            a4, a5, a6⟩ := add_dependency_ok hadd
          have hkc : ∀ x, gr.keyIdx x = st.graph.keyIdx x :=
            fun x => keyIdx_congr a1 x
          refine ⟨by simpa [List.append_assoc] using c1,
            by simpa [fittingNames, hk] using c2,
            by simp only [List.length_append, List.length_cons,
          List.length_nil] at c3 ⊢; omega,
            by simpa [depMapSpec, hk, List.append_assoc] using c4,
            by rw [c5]; exact a1, fun e he => c6 e (a2 e he), ?_, ?_,
            ?_, ?_⟩
          · intro f2 hf2 t ht
            rcases List.mem_cons.mp hf2 with hf2 | hf2
            · subst hf2
              rw [hk] at ht
              cases ht
              exact ⟨ai, bi, ak1, ak2, c6 _ ak3⟩
            · obtain ⟨ai2, bi2, hx1, hx2, hx3⟩ := c7 f2 hf2 t ht
              exact ⟨ai2, bi2, (hkc _) ▸ hx1, (hkc _) ▸ hx2, hx3⟩
          · intro e he
            rcases c8 e he with h1 | ⟨f2, hf2, t, ht, hq1, hq2⟩
            · rcases a6 e h1 with h3 | ⟨ai2, bi2, hy1, hy2, hy3⟩
              · exact Or.inl h3
              · refine Or.inr ⟨f, List.mem_cons_self _ _, dep_name, hk,
                  ?_, ?_⟩
                · rw [hy3, hy1]
                · rw [hy3, hy2]
            · exact Or.inr ⟨f2, List.mem_cons_of_mem _ hf2, t, ht,
                (hkc _) ▸ hq1, (hkc _) ▸ hq2⟩
          · intro hc
            exact c9 (a4 hc)
          · intro hw
            refine c10 ⟨fun p hp => ?_, a5 hw.2⟩
            rcases a6 p hp with h3 | ⟨ai2, bi2, hy1, hy2, hy3⟩
            · have hold := hw.1 p h3
              have hN : gr.N = st.graph.N := by
                unfold DepGraph.N
                rw [a1]
              rw [hN]
              exact hold
            · have hai : ai2 = ai := Option.some.inj (hy1.symm.trans ak1)
              have hbi : bi2 = bi := Option.some.inj (hy2.symm.trans ak2)
              subst hy3
              subst hai
              subst hbi
              have hN : gr.N = st.graph.N := by
                unfold DepGraph.N
                rw [a1]
              rw [hN]
              exact ⟨ak4, ak5, ak6⟩

/-- The classification loop can only fail with the eager 2-cycle
`CircularDependency` when every `SameAs` declaration names two distinct
existing nodes. -/
theorem genLoop_err :
    ∀ (fs : List FieldDecl) (i : Nat) (st : GenState) (e : SpecError),
      genLoop fs i st = .error e →
      (∀ f ∈ fs, ∀ t, f.kind = .sameAs t → f.name ≠ t ∧
        (st.graph.keyIdx f.name).isSome = true ∧
        (st.graph.keyIdx t).isSome = true) →
      ∃ w s2, e = .circularDependency w s2 := by
  intro fs
  induction fs with
  | nil =>
    intro i st e h hgood
    cases h
  | cons f rest ih =>
    intro i st e h hgood
    rw [genLoop] at h
    cases hk : f.kind with
    | regular =>
      rw [hk] at h
      exact ih (i + 1) _ e h (fun f2 hf2 t ht =>
        hgood f2 (List.mem_cons_of_mem _ hf2) t ht)
    | bounded mn mx =>
      rw [hk] at h
      exact ih (i + 1) _ e h (fun f2 hf2 t ht =>
        hgood f2 (List.mem_cons_of_mem _ hf2) t ht)
    | const v =>
      rw [hk] at h
      exact ih (i + 1) _ e h (fun f2 hf2 t ht =>
        hgood f2 (List.mem_cons_of_mem _ hf2) t ht)
    | sameAs dep_name =>
      rw [hk] at h
      obtain ⟨hne, hks, hkt⟩ :=
        hgood f (List.mem_cons_self _ _) dep_name hk
      have hm : (match st.graph.add_dependency f.name dep_name with
          | (_, .error e2) => (Except.error e2 : Except SpecError GenState)
          | (gr, .ok _) =>
            genLoop rest (i + 1) { st with
              special := st.special ++ [f.name],
              field_descriptors := st.field_descriptors ++
                [(f.name, FieldKind.sameAs dep_name)],
              graph := gr,
              resolvers := st.resolvers ++
                [DefaultResolver.dependent
                  (DependentResolver.mk f.name dep_name)],
              depMap := st.depMap ++
                [(f.name, DependentResolver.mk f.name dep_name)] }) =
          .error e := h
      cases hadd : st.graph.add_dependency f.name dep_name with
      | mk gr res =>
        rw [hadd] at hm
        cases res with
        | error e2 =>
          have h3 : (Except.error e2 : Except SpecError GenState) =
              .error e := hm
          obtain ⟨heq, _⟩ := add_dependency_error hadd hne hks hkt
          cases h3
          exact ⟨f.name, dep_name, heq⟩
        | ok rb =>
          have h2 : genLoop rest (i + 1) { st with
              special := st.special ++ [f.name],
              field_descriptors := st.field_descriptors ++
                [(f.name, FieldKind.sameAs dep_name)],
              graph := gr,
              resolvers := st.resolvers ++
                [DefaultResolver.dependent
                  (DependentResolver.mk f.name dep_name)],
              depMap := st.depMap ++
                [(f.name, DependentResolver.mk f.name dep_name)] } =
              .error e := hm
          obtain ⟨hf, _, _, _, _, _⟩ := add_dependency_ok hadd
          have hkc : ∀ x, gr.keyIdx x = st.graph.keyIdx x :=
            fun x => keyIdx_congr hf x
          exact ih (i + 1) _ e h2 (fun f2 hf2 t ht => by
            obtain ⟨j1, j2, j3⟩ :=
              hgood f2 (List.mem_cons_of_mem _ hf2) t ht
            exact ⟨j1, by rw [hkc]; exact j2, by rw [hkc]; exact j3⟩)

theorem wf_initState (fs : List FieldDecl) :
    WFGraph (initState fs).graph := by
  constructor
  · intro p hp
    simp [initState, DepGraph.ofFields] at hp
  · simp [initState, DepGraph.ofFields]

theorem getD_inj {fields : List String} (hnd : fields.Nodup) {i j : Nat}
    (hi : i < fields.length) (hj : j < fields.length)
    (h : fields.getD i "" = fields.getD j "") : i = j := by
  rw [List.getD_eq_getElem fields "" hi, List.getD_eq_getElem fields "" hj]
    at h
  exact (List.Nodup.getElem_inj_iff hnd).mp h

theorem indexOf_map_getD {fields : List String} (hnd : fields.Nodup) :
    ∀ {idxs : List Nat}, (∀ k ∈ idxs, k < fields.length) →
      ∀ {i : Nat}, i ∈ idxs → i < fields.length →
      (idxs.map (fun k => fields.getD k "")).indexOf (fields.getD i "") =
        idxs.indexOf i := by
  intro idxs
  induction idxs with
  | nil => intro _ i hi; cases hi
  | cons j tl ih =>
    intro hbound i hi hilt
    by_cases hij : i = j
    · subst hij
      simp only [List.map_cons]
      rw [List.indexOf_cons_self, List.indexOf_cons_self]
    · have hjlt : j < fields.length := hbound j (by simp)
      have hne : fields.getD j "" ≠ fields.getD i "" := by
        intro hcon
        exact hij (getD_inj hnd hjlt hilt hcon).symm
      have hitl : i ∈ tl := by
        rcases List.mem_cons.mp hi with h1 | h1
        · exact absurd h1 hij
        · exact h1
      simp only [List.map_cons]
      rw [List.indexOf_cons_ne _ hne, List.indexOf_cons_ne _ (Ne.symm hij),
        ih (fun k hk => hbound k (by simp [hk])) hitl hilt]

theorem lookup_of_keys_nodup {al : List (String × DependentResolver)}
    (hnd : (al.map Prod.fst).Nodup) {k : String} {v : DependentResolver}
    (hmem : (k, v) ∈ al) : al.lookup k = some v := by
  induction al with
  | nil => cases hmem
  | cons p tl ih =>
    rcases List.mem_cons.mp hmem with h1 | h1
    · subst h1
      simp [List.lookup]
    · have hk : p.1 ≠ k := by
        intro hcon
        have : k ∈ tl.map Prod.fst := List.mem_map.mpr ⟨(k, v), h1, rfl⟩
        rw [← hcon] at this
        exact (List.nodup_cons.mp (by simpa using hnd)).1 this
      have hrec := ih
        (by simpa using (List.nodup_cons.mp (by simpa using hnd)).2) h1
      have hbeq : (k == p.1) = false :=
        beq_eq_false_iff_ne.mpr (Ne.symm hk)
      simp [List.lookup, hbeq, hrec]

theorem mem_depMapSpec {fs : List FieldDecl} {p : String × DependentResolver}
    (h : p ∈ depMapSpec fs) :
    ∃ f ∈ fs, ∃ t, f.kind = .sameAs t ∧ p = (f.name, ⟨f.name, t⟩) := by
  obtain ⟨f, hf, hp⟩ := List.mem_filterMap.mp h
  refine ⟨f, hf, ?_⟩
  cases hk : f.kind with
  | sameAs t =>
    rw [hk] at hp
    exact ⟨t, rfl, by cases hp; rfl⟩
  | regular => rw [hk] at hp; cases hp
  | bounded mn mx => rw [hk] at hp; cases hp
  | const v => rw [hk] at hp; cases hp

theorem depMapSpec_mem {fs : List FieldDecl} {f : FieldDecl} {t : String}
    (hf : f ∈ fs) (hk : f.kind = .sameAs t) :
    (f.name, (⟨f.name, t⟩ : DependentResolver)) ∈ depMapSpec fs := by
  refine List.mem_filterMap.mpr ⟨f, hf, ?_⟩
  rw [hk]

theorem depMapSpec_cons_sameAs {f : FieldDecl} {t : String}
    (rest : List FieldDecl) (hk : f.kind = .sameAs t) :
    depMapSpec (f :: rest) =
      (f.name, (⟨f.name, t⟩ : DependentResolver)) :: depMapSpec rest := by
  unfold depMapSpec
  rw [List.filterMap_cons]
  simp [hk]

theorem depMapSpec_cons_other {f : FieldDecl} (rest : List FieldDecl)
    (hk : ∀ t, f.kind ≠ .sameAs t) :
    depMapSpec (f :: rest) = depMapSpec rest := by
  unfold depMapSpec
  rw [List.filterMap_cons]
  cases hf : f.kind with
  | sameAs t => exact absurd hf (hk t)
  | regular => rfl
  | bounded mn mx => rfl
  | const v => rfl

theorem depMapSpec_keys_sublist (fs : List FieldDecl) :
    List.Sublist ((depMapSpec fs).map Prod.fst)
      (fs.map (fun f => f.name)) := by
  induction fs with
  | nil => exact List.Sublist.refl _
  | cons f rest ih =>
    cases hk : f.kind with
    | sameAs t =>
      rw [depMapSpec_cons_sameAs rest hk]
      simp only [List.map_cons]
      exact ih.cons₂ f.name
    | regular =>
      rw [depMapSpec_cons_other rest (by simp [hk]), List.map_cons]
      exact ih.trans (List.sublist_cons_self _ _)
    | bounded mn mx =>
      rw [depMapSpec_cons_other rest (by simp [hk]), List.map_cons]
      exact ih.trans (List.sublist_cons_self _ _)
    | const v =>
      rw [depMapSpec_cons_other rest (by simp [hk]), List.map_cons]
      exact ih.trans (List.sublist_cons_self _ _)

theorem fittingNames_cons_fitting {f : FieldDecl}
    (rest : List FieldDecl) (hk : isFittingKind f.kind = true) :
    fittingNames (f :: rest) = f.name :: fittingNames rest := by
  unfold fittingNames
  rw [List.filterMap_cons]
  cases hf : f.kind with
  | regular => rfl
  | bounded mn mx => rfl
  | const v => rw [hf] at hk; cases hk
  | sameAs t => rw [hf] at hk; cases hk

theorem fittingNames_cons_other {f : FieldDecl}
    (rest : List FieldDecl) (hk : isFittingKind f.kind = false) :
    fittingNames (f :: rest) = fittingNames rest := by
  unfold fittingNames
  rw [List.filterMap_cons]
  cases hf : f.kind with
  | regular => rw [hf] at hk; cases hk
  | bounded mn mx => rw [hf] at hk; cases hk
  | const v => rfl
  | sameAs t => rfl

theorem kinds_partition (fs : List FieldDecl) :
    (fittingNames fs).length +
      fs.countP (fun f => isConstKind f.kind) +
      fs.countP (fun f => isSameAsKind f.kind) = fs.length := by
  induction fs with
  | nil => rfl
  | cons f rest ih =>
    rw [List.countP_cons, List.countP_cons, List.length_cons]
    cases hk : f.kind with
    | regular =>
      rw [fittingNames_cons_fitting rest (by rw [hk]; rfl),
        List.length_cons]
      rw [show (if isConstKind FieldKind.regular = true
          then 1 else 0) = 0 from rfl,
        show (if isSameAsKind FieldKind.regular = true
          then 1 else 0) = 0 from rfl]
      omega
    | bounded mn mx =>
      rw [fittingNames_cons_fitting rest (by rw [hk]; rfl),
        List.length_cons]
      rw [show (if isConstKind (FieldKind.bounded mn mx) = true
          then 1 else 0) = 0 from rfl,
        show (if isSameAsKind (FieldKind.bounded mn mx) = true
          then 1 else 0) = 0 from rfl]
      omega
    | const v =>
      rw [fittingNames_cons_other rest (by rw [hk]; rfl)]
      rw [show (if isConstKind (FieldKind.const v) = true
          then 1 else 0) = 1 from rfl,
        show (if isSameAsKind (FieldKind.const v) = true
          then 1 else 0) = 0 from rfl]
      omega
    | sameAs t =>
      rw [fittingNames_cons_other rest (by rw [hk]; rfl)]
      rw [show (if isConstKind (FieldKind.sameAs t) = true
          then 1 else 0) = 0 from rfl,
        show (if isSameAsKind (FieldKind.sameAs t) = true
          then 1 else 0) = 1 from rfl]
      omega

/-- Full characterization of a successful `generate`: the components of
the produced specification, including that `init_order` is a permutation
of the field names in which every `SameAs` field follows its target, and
the exact shape of `dep_resolvers`. -/
theorem generate_ok {fs : List FieldDecl} {s : FitSpec}
    (hnd : (fs.map (fun f => f.name)).Nodup)
    (h : generate fs = .ok s) :
    s.clss = fs ∧
    s.special_param_count = fs.length ∧
    s.fitting_params = fittingNames fs ∧
    s.fitting_param_count = (fittingNames fs).length ∧
    s.init_order.Perm (fs.map (fun f => f.name)) ∧
    (∀ f ∈ fs, ∀ t, f.kind = .sameAs t →
      s.init_order.indexOf t < s.init_order.indexOf f.name) ∧
    s.dep_resolvers = s.init_order.filterMap
      (fun n => (depMapSpec fs).lookup n) ∧
    (∀ f ∈ fs, ∀ t, f.kind = .sameAs t →
      t ∈ fs.map (fun f => f.name)) := by
  unfold generate at h
  cases hloop : genLoop fs 0 (initState fs) with
  | error e =>
    rw [hloop] at h
    simp only [Bind.bind, Except.instMonad, Except.bind] at h
    cases h
  | ok st =>
    rw [hloop] at h
    simp only [Bind.bind, Except.instMonad, Except.bind] at h
    obtain ⟨c1, c2, c3, c4, c5, c6, c7, c8, c9, c10⟩ :=
      genLoop_ok fs 0 (initState fs) st hloop
    have hspec : st.special = fs.map (fun f => f.name) := by
      rw [c1]; rfl
    have hfit : st.fitting = fittingNames fs := by
      rw [c2]; rfl
    have hdm : st.depMap = depMapSpec fs := by
      rw [c4]; rfl
    have hgf : st.graph.fields = fs.map (fun f => f.name) := by
      rw [c5]; rfl
    have hlen : st.resolvers.length = st.special.length := by
      rw [c3, hspec]
      simp [initState]
    rw [if_neg (show ¬ st.resolvers.length ≠ st.special.length from
      fun hcon => hcon hlen)] at h
    have hwf : WFGraph st.graph := c10 (wf_initState fs)
    have hinv : st.graph.numDeps = st.graph.edges.length := c9 rfl
    by_cases hdep : st.graph.dependency_count > 0
    · rw [if_pos hdep] at h
      have hb : EdgesBounded st.graph :=
        fun p hp => ⟨(hwf.1 p hp).1, (hwf.1 p hp).2.1⟩
      cases hcyc : st.graph.has_closed_cycles with
      | true =>
        rw [if_pos hcyc] at h
        cases h
      | false =>
        rw [if_neg (by simp [hcyc])] at h
        have hacy : Acyclic st.graph :=
          (acyclic_iff_not_detected hb).mpr hcyc
        have hgio := get_init_order_eq_greedy hwf hacy
        have hpermN : (specGreedyIdx st.graph).Perm
            (List.range st.graph.N) :=
          greedyLoopF_perm hacy (List.range st.graph.N).length _ le_rfl
            (List.nodup_range _)
        have hio_perm : (specGreedyOrder st.graph).Perm
            (fs.map (fun f => f.name)) := by
          have h3 : (specGreedyOrder st.graph).Perm st.graph.fields := by
            unfold specGreedyOrder
            have h1 := hpermN.map (fun i => st.graph.fields.getD i "")
            unfold DepGraph.N at h1
            rw [map_getD_range st.graph.fields] at h1
            exact h1
          rw [hgf] at h3
          exact h3
        have hfiltid : (specGreedyOrder st.graph).filter
            (fun f => decide (f ∈ st.special)) =
            specGreedyOrder st.graph := by
          rw [List.filter_eq_self]
          intro a ha
          have : a ∈ fs.map (fun f => f.name) := hio_perm.mem_iff.mp ha
          rw [hspec]
          exact decide_eq_true this
        have hlenio : ((specGreedyOrder st.graph).filter
            (fun f => decide (f ∈ st.special))).length =
            st.special.length := by
          rw [hfiltid, hio_perm.length_eq, hspec]
        split at h
        · rename_i err heq
          exact Except.noConfusion h
        · rename_i io heq
          have hioval : io = specGreedyOrder st.graph := by
            have := heq.symm.trans hgio
            exact Except.ok.inj this
          subst hioval
          rw [if_neg (fun hcon => hcon hlenio)] at h
          split at h
          · rename_i v2 heq2
            exact Except.noConfusion heq2
          · rename_i v2 heq2
            have hv2 : v2 = ((specGreedyOrder st.graph).filter
                (fun f => decide (f ∈ st.special)),
              ((specGreedyOrder st.graph).filter
                (fun f => decide (f ∈ st.special))).filterMap
                (fun f => st.depMap.lookup f)) := by
              exact (Except.ok.inj heq2).symm
            subst hv2
            split at h
            · exact Except.noConfusion h
            · rename_i lower heqlow
              split at h
              · exact Except.noConfusion h
              · rename_i upper hequpp
                have hs := Except.ok.inj h
                subst hs
                have hfnodup : st.graph.fields.Nodup := by
                  rw [hgf]; exact hnd
                have hidxbound : ∀ k ∈ specGreedyIdx st.graph,
                    k < st.graph.fields.length := by
                  intro k hk
                  have := hpermN.mem_iff.mp hk
                  exact List.mem_range.mp this
                refine ⟨rfl, ?_, ?_, ?_, ?_, ?_, ?_, ?_⟩
                · show st.special.length = fs.length
                  rw [hspec, List.length_map]
                · exact hfit
                · show st.fitting.length = (fittingNames fs).length
                  rw [hfit]
                · show ((specGreedyOrder st.graph).filter
                    (fun f => decide (f ∈ st.special))).Perm _
                  rw [hfiltid]
                  exact hio_perm
                · intro f hf t ht
                  obtain ⟨ai, bi, hk1, hk2, hedge⟩ := c7 f hf t ht
                  have hk1g : st.graph.keyIdx f.name = some ai := by
                    rw [keyIdx_congr c5 f.name]; exact hk1
                  have hk2g : st.graph.keyIdx t = some bi := by
                    rw [keyIdx_congr c5 t]; exact hk2
                  have htopo := greedyLoopF_topo hacy
                    (fun p hp => (hwf.1 p hp).2.2)
                    (List.range st.graph.N).length _ le_rfl
                    (List.nodup_range _) ai bi hedge
                    (List.mem_range.mpr (keyIdx_lt hk1g))
                    (List.mem_range.mpr (keyIdx_lt hk2g))
                  have hbimem : bi ∈ specGreedyIdx st.graph :=
                    hpermN.mem_iff.mpr
                      (List.mem_range.mpr (keyIdx_lt hk2g))
                  have haimem : ai ∈ specGreedyIdx st.graph :=
                    hpermN.mem_iff.mpr
                      (List.mem_range.mpr (keyIdx_lt hk1g))
                  have hgetbi : st.graph.fields.getD bi "" = t :=
                    keyIdx_getD hk2g
                  have hgetai : st.graph.fields.getD ai "" = f.name :=
                    keyIdx_getD hk1g
                  show (((specGreedyOrder st.graph).filter
                      (fun f => decide (f ∈ st.special)))).indexOf t <
                    (((specGreedyOrder st.graph).filter
                      (fun f => decide (f ∈ st.special)))).indexOf f.name
                  rw [hfiltid]
                  show (specGreedyOrder st.graph).indexOf t <
                    (specGreedyOrder st.graph).indexOf f.name
                  unfold specGreedyOrder
                  rw [← hgetbi, ← hgetai,
                    indexOf_map_getD hfnodup hidxbound hbimem
                      (keyIdx_lt hk2g),
                    indexOf_map_getD hfnodup hidxbound haimem
                      (keyIdx_lt hk1g)]
                  exact htopo
                · show ((specGreedyOrder st.graph).filter
                      (fun f => decide (f ∈ st.special))).filterMap
                      (fun f => st.depMap.lookup f) = _
                  rw [hdm]
                · intro f hf t ht
                  obtain ⟨ai, bi, hk1, hk2, _⟩ := c7 f hf t ht
                  have : t ∈ (initState fs).graph.fields :=
                    keyIdx_isSome.mp (by rw [hk2]; rfl)
                  exact this
    · rw [if_neg hdep] at h
      split at h
      · rename_i v2 heq2
        exact Except.noConfusion heq2
      · rename_i v2 heq2
        have hv2 : v2 = (st.special, ([] : List DependentResolver)) :=
          (Except.ok.inj heq2).symm
        subst hv2
        split at h
        · exact Except.noConfusion h
        · rename_i lower heqlow
          split at h
          · exact Except.noConfusion h
          · rename_i upper hequpp
            have hs := Except.ok.inj h
            subst hs
            have hedges : st.graph.edges = [] := by
              have hz : st.graph.numDeps = 0 := by
                unfold DepGraph.dependency_count at hdep
                omega
              rw [hz] at hinv
              exact (List.length_eq_zero.mp hinv.symm)
            have hnos : ∀ f ∈ fs, ∀ t, f.kind = .sameAs t → False := by
              intro f hf t ht
              obtain ⟨ai, bi, _, _, hedge⟩ := c7 f hf t ht
              rw [hedges] at hedge
              cases hedge
            have hdme : depMapSpec fs = [] := by
              unfold depMapSpec
              rw [List.filterMap_eq_nil_iff]
              intro f hf
              cases hk : f.kind with
              | regular => rfl
              | bounded mn mx => rfl
              | const v => rfl
              | sameAs t => exact absurd hk (fun hc => hnos f hf t hc)
            refine ⟨rfl, ?_, ?_, ?_, ?_, ?_, ?_, ?_⟩
            · show st.special.length = fs.length
              rw [hspec, List.length_map]
            · exact hfit
            · show st.fitting.length = (fittingNames fs).length
              rw [hfit]
            · show st.special.Perm (fs.map (fun f => f.name))
              rw [hspec]
            · intro f hf t ht
              exact absurd ht (fun hc => hnos f hf t hc)
            · show ([] : List DependentResolver) = st.special.filterMap
                (fun n => (depMapSpec fs).lookup n)
              rw [hdme]
              symm
              rw [List.filterMap_eq_nil_iff]
              intro a _
              rfl
            · intro f hf t ht
              exact absurd ht (fun hc => hnos f hf t hc)

/-! ### Claims C1 and C2: the two indexing bugs of `generate`, exhibited
on their failing inputs -/

/-- Claim C1 (code-bug exhibit): `generate` records each finite bound at
the field's enumeration index among all constructor fields instead of its
fitting-vector position.  With a `Const` field declared before a `Bounded`
field the numpy assignment is out of range and generation crashes with
`IndexError`; with a further trailing `Regular` field generation succeeds
but the bounds arrays are misaligned: `b`, the only bounded field, sits at
fitting position 0, yet its bounds land at position 1 (the slot of `r`,
which declares no bounds), leaving `-inf`/`+inf` at `b`'s own slot. -/
theorem claim_C1 :
    generate recConstBounded = .error .indexError ∧
    (generate recConstBoundedRegular).toOption.map
        (fun s => (s.fitting_params, s.lower_bounds, s.upper_bounds)) =
      some (["b", "r"], some [.ninf, .fin 0], some [.pinf, .fin 1]) := by
  constructor
  · decide
  · decide

/-- Claim C2 (code-bug exhibit): `default_resolvers` is built in
declaration order while `create_default_fit_instance` zips it with
`init_order`, which is the dependency order.  On a record whose `SameAs`
field precedes its `Const` target, generation succeeds with
`init_order = [b, a]` but the resolvers stay in declaration order
`[DependentResolver(a, b), Fixed 5]`, so the dependent resolver is invoked
for `b` on an empty mapping and default construction crashes with
`KeyError` instead of producing `a = b = 5`. -/
theorem claim_C2 :
    (generate recSameAsConst).toOption.map
        (fun s => (s.init_order, s.default_resolvers)) =
      some (["b", "a"],
        [.dependent ⟨"a", "b"⟩, .fixed (.fin 5)]) ∧
    (generate recSameAsConst).bind create_default_fit_instance =
      .error (.keyError "b") := by
  constructor
  · decide
  · decide

/-! ### Claim C9: structural invariants of a generated specification -/

/-- Claim C9: for every record whose generation succeeds, the number of
fitting params plus the numbers of `Const` and `SameAs` fields equals
`special_param_count`; `init_order` is a permutation of all
constructor-relevant field names; and every `SameAs` field appears
strictly after its target in `init_order`. -/
theorem claim_C9 (fs : List FieldDecl) (s : FitSpec)
    (hnd : (fs.map (fun f => f.name)).Nodup)
    (h : generate fs = .ok s) :
    s.fitting_params.length + fs.countP (fun f => isConstKind f.kind) +
      fs.countP (fun f => isSameAsKind f.kind) = s.special_param_count ∧
    s.init_order.Perm (fs.map (fun f => f.name)) ∧
    (∀ f ∈ fs, ∀ t, f.kind = .sameAs t →
      s.init_order.indexOf t < s.init_order.indexOf f.name) := by
  obtain ⟨_, h2, h3, _, h5, h6, _, _⟩ := generate_ok hnd h
  refine ⟨?_, h5, h6⟩
  rw [h3, h2]
  exact kinds_partition fs

/-- Witness for claim C9 on the spec's example record
(`a: Regular`, `b: SameAs(a)`, `c: Const(7)`). -/
theorem claim_C9_witness :
    generate recRegularSameAsConst = .ok specRegularSameAsConst ∧
    (specRegularSameAsConst.fitting_params.length +
        recRegularSameAsConst.countP (fun f => isConstKind f.kind) +
        recRegularSameAsConst.countP (fun f => isSameAsKind f.kind) =
        specRegularSameAsConst.special_param_count ∧
      specRegularSameAsConst.init_order.Perm
        (recRegularSameAsConst.map (fun f => f.name)) ∧
      (∀ f ∈ recRegularSameAsConst, ∀ t, f.kind = .sameAs t →
        specRegularSameAsConst.init_order.indexOf t <
          specRegularSameAsConst.init_order.indexOf f.name)) :=
  ⟨by decide,
    claim_C9 recRegularSameAsConst specRegularSameAsConst
      (by decide) (by decide)⟩

/-! ### Claim C5: records with `SameAs` cycles are rejected -/

theorem sameAsTargetsOk_spec {fs : List FieldDecl}
    (h : sameAsTargetsOk fs = true) :
    ∀ f ∈ fs, ∀ t, f.kind = .sameAs t →
      t ∈ fs.map (fun f2 => f2.name) ∧ f.name ≠ t := by
  intro f hf t ht
  have := List.all_eq_true.mp h f hf
  rw [ht] at this
  have h2 := Bool.and_eq_true_iff.mp this
  exact ⟨of_decide_eq_true h2.1, by simpa using h2.2⟩

/-- Claim C5: a record whose `SameAs` declarations form a directed cycle
(of any length at least 2; with all targets existing and no
self-targets, so that the cycle is the first defect the generator can
meet) fails generation with one of the `CircularDependency` errors and
yields no specification. -/
theorem claim_C5 (fs : List FieldDecl)
    (hnd : (fs.map (fun f => f.name)).Nodup)
    (htgt : sameAsTargetsOk fs = true)
    (hcyc : ∃ n, Relation.TransGen (SameAsRel fs) n n) :
    ∃ e, generate fs = .error e ∧ e.isCircular = true := by
  have htgt2 := sameAsTargetsOk_spec htgt
  cases hloop : genLoop fs 0 (initState fs) with
  | error e =>
    have herr := genLoop_err fs 0 (initState fs) e hloop (by
      intro f hf t ht
      obtain ⟨hmem, hne⟩ := htgt2 f hf t ht
      refine ⟨hne, ?_, ?_⟩
      · exact keyIdx_isSome.mpr (List.mem_map.mpr ⟨f, hf, rfl⟩)
      · exact keyIdx_isSome.mpr hmem)
    obtain ⟨w, s2, he⟩ := herr
    refine ⟨e, ?_, by rw [he]; rfl⟩
    unfold generate
    rw [hloop]
    rfl
  | ok st =>
    obtain ⟨c1, c2, c3, c4, c5, c6, c7, c8, c9, c10⟩ :=
      genLoop_ok fs 0 (initState fs) st hloop
    have hwf : WFGraph st.graph := c10 (wf_initState fs)
    have hb : EdgesBounded st.graph :=
      fun p hp => ⟨(hwf.1 p hp).1, (hwf.1 p hp).2.1⟩
    have hinv : st.graph.numDeps = st.graph.edges.length := c9 rfl
    obtain ⟨n, hn⟩ := hcyc
    have hlift : ∀ x y, SameAsRel fs x y →
        EdgeRel st.graph
          (((initState fs).graph.keyIdx x).getD 0)
          (((initState fs).graph.keyIdx y).getD 0) := by
      intro x y hxy
      obtain ⟨f, hf, hfx, hfk⟩ := hxy
      obtain ⟨ai, bi, hk1, hk2, hedge⟩ := c7 f hf y hfk
      rw [← hfx, hk1, hk2]
      exact hedge
    have hcycg : ∃ i, Relation.TransGen (EdgeRel st.graph) i i :=
      ⟨((initState fs).graph.keyIdx n).getD 0,
        Relation.TransGen.lift
          (fun x => ((initState fs).graph.keyIdx x).getD 0) hlift hn⟩
    have hdet : st.graph.has_closed_cycles = true :=
      (has_closed_cycles_iff hb).mpr hcycg
    have hdep : st.graph.dependency_count > 0 := by
      obtain ⟨i, hi⟩ := hcycg
      have hedge : ∃ e, e ∈ st.graph.edges := by
        cases hi with
        | single he => exact ⟨_, he⟩
        | tail hab hbc => exact ⟨_, hbc⟩
      obtain ⟨e, he⟩ := hedge
      have : st.graph.edges ≠ [] := List.ne_nil_of_mem he
      have : 0 < st.graph.edges.length := List.length_pos.mpr this
      unfold DepGraph.dependency_count
      omega
    have hspec : st.special = fs.map (fun f => f.name) := by
      rw [c1]; rfl
    have hlen : st.resolvers.length = st.special.length := by
      rw [c3, hspec]
      simp [initState]
    refine ⟨.circularDependencies, ?_, rfl⟩
    unfold generate
    rw [hloop]
    show (if st.resolvers.length ≠ st.special.length then
        (Except.error SpecError.assertionError : Except SpecError FitSpec)
      else if st.graph.dependency_count > 0 then
        if st.graph.has_closed_cycles = true then
          Except.error SpecError.circularDependencies
        else _
      else _) = Except.error SpecError.circularDependencies
    rw [if_neg (fun hcon => hcon hlen), if_pos hdep, if_pos hdet]

/-- Witness for claim C5 on the two-field record `a: SameAs(b)`,
`b: SameAs(a)` of the spec's example scenario, with the immediate 2-cycle
supplied explicitly. -/
theorem claim_C5_witness :
    (∃ e, generate recTwoCycle = .error e ∧ e.isCircular = true) ∧
    generate recTwoCycle = .error (.circularDependency "b" "a") :=
  ⟨claim_C5 recTwoCycle (by decide) (by decide)
    ⟨"a", Relation.TransGen.tail
      (Relation.TransGen.single
        ⟨sameAsF "a" "b" none, by decide, rfl, rfl⟩)
      ⟨sameAsF "b" "a" none, by decide, rfl, rfl⟩⟩,
  by decide⟩

theorem lookup_mem {β : Type} {k : String} {v : β} :
    ∀ {l : List (String × β)}, l.lookup k = some v → (k, v) ∈ l := by
  intro l
  induction l with
  | nil => intro h; cases h
  | cons p tl ih =>
    intro h
    obtain ⟨a, b⟩ := p
    cases hbeq : k == a with
    | true =>
      rw [List.lookup, hbeq] at h
      have h2 : b = v := Option.some.inj h
      subst h2
      exact List.mem_cons.mpr (Or.inl (by rw [eq_of_beq hbeq]))
    | false =>
      rw [List.lookup, hbeq] at h
      exact List.mem_cons_of_mem _ (ih h)

theorem name_inj {fs : List FieldDecl}
    (hnd : (fs.map (fun f => f.name)).Nodup) {f g : FieldDecl}
    (hf : f ∈ fs) (hg : g ∈ fs) (h : f.name = g.name) : f = g :=
  List.inj_on_of_nodup_map hnd hf hg h

theorem mem_fittingNames {fs : List FieldDecl} {x : String} :
    x ∈ fittingNames fs ↔
      ∃ f ∈ fs, isFittingKind f.kind = true ∧ f.name = x := by
  unfold fittingNames
  rw [List.mem_filterMap]
  constructor
  · rintro ⟨f, hf, hfx⟩
    refine ⟨f, hf, ?_⟩
    cases hk : f.kind with
    | regular =>
      rw [hk] at hfx
      have hfx2 : some f.name = some x := hfx
      exact ⟨rfl, Option.some.inj hfx2⟩
    | bounded mn mx =>
      rw [hk] at hfx
      have hfx2 : some f.name = some x := hfx
      exact ⟨rfl, Option.some.inj hfx2⟩
    | const v =>
      rw [hk] at hfx
      have hfx2 : (none : Option String) = some x := hfx
      cases hfx2
    | sameAs t =>
      rw [hk] at hfx
      have hfx2 : (none : Option String) = some x := hfx
      cases hfx2
  · rintro ⟨f, hf, hfit, hname⟩
    refine ⟨f, hf, ?_⟩
    cases hk : f.kind with
    | regular => exact congrArg some hname
    | bounded mn mx => exact congrArg some hname
    | const v => rw [hk] at hfit; simp [isFittingKind] at hfit
    | sameAs t => rw [hk] at hfit; simp [isFittingKind] at hfit

theorem foldDeps_err {c : String} :
    ∀ (rs : List DependentResolver) (kwargs : List (String × EF)),
      (∃ r ∈ rs, r.name = c) →
      (∀ p ∈ kwargs, p.1 ≠ c) →
      (∀ r ∈ rs, r.target ≠ c) →
      ∃ n, List.foldlM depStep kwargs rs =
        Except.error (SpecError.keyError n) := by
  intro rs
  induction rs with
  | nil =>
    intro kwargs hex _ _
    obtain ⟨r, hr, _⟩ := hex
    cases hr
  | cons r0 rest ih =>
    intro kwargs hex hkeys htgt
    rw [List.foldlM_cons]
    cases hl : List.lookup r0.name kwargs with
    | none =>
      refine ⟨r0.name, ?_⟩
      have hstep : depStep kwargs r0 =
          .error (.keyError r0.name) := by
        unfold depStep; rw [hl]
      rw [hstep]
      rfl
    | some v =>
      have hr0ne : r0.name ≠ c := by
        intro hcon
        rw [hcon] at hl
        exact hkeys _ (lookup_mem hl) rfl
      have hex2 : ∃ r ∈ rest, r.name = c := by
        obtain ⟨r, hr, hrc⟩ := hex
        rcases List.mem_cons.mp hr with h1 | h1
        · subst h1; exact absurd hrc hr0ne
        · exact ⟨r, h1, hrc⟩
      have hkeys2 : ∀ p ∈ (r0.target, v) :: kwargs, p.1 ≠ c := by
        intro p hp
        rcases List.mem_cons.mp hp with h1 | h1
        · subst h1; exact htgt r0 (by simp)
        · exact hkeys p h1
      have htgt2 : ∀ r ∈ rest, r.target ≠ c :=
        fun r hr => htgt r (List.mem_cons_of_mem _ hr)
      obtain ⟨n, hfold⟩ := ih ((r0.target, v) :: kwargs) hex2 hkeys2 htgt2
      refine ⟨n, ?_⟩
      have hstep : depStep kwargs r0 = .ok ((r0.target, v) :: kwargs) := by
        unfold depStep; rw [hl]
      rw [hstep]
      exact hfold

/-- Claim C10: whenever a record contains a `SameAs` field whose target is
a `Const` field, `array_to_instance` on a correctly sized array fails with
a `KeyError`: the kwargs mapping it builds holds only the fitting-param
values and previously resolved `SameAs` values, never `Const` values, so
the dependent resolver's lookup of the `Const` target cannot succeed —
even though `generate` succeeds on such a record. -/
theorem claim_C10 (fs : List FieldDecl) (s : FitSpec)
    (hnd : (fs.map (fun f => f.name)).Nodup)
    (h : generate fs = .ok s)
    (f ft : FieldDecl) (hf : f ∈ fs) (hft : ft ∈ fs)
    (hkf : f.kind = .sameAs ft.name) (v : EF) (hkft : ft.kind = .const v)
    (arr : List EF) (hlen : arr.length = s.fitting_param_count) :
    ∃ n, array_to_instance s arr = .error (.keyError n) := by
  obtain ⟨hclss, hsp, hfp, hfpc, hperm, htopo, hdr, htex⟩ :=
    generate_ok hnd h
  have hkeysnd : ((depMapSpec fs).map Prod.fst).Nodup :=
    List.Nodup.sublist (depMapSpec_keys_sublist fs) hnd
  have hlkp : (depMapSpec fs).lookup f.name = some ⟨f.name, ft.name⟩ :=
    lookup_of_keys_nodup hkeysnd (depMapSpec_mem hf hkf)
  have hfio : f.name ∈ s.init_order :=
    hperm.mem_iff.mpr (List.mem_map.mpr ⟨f, hf, rfl⟩)
  have hrmem : (⟨f.name, ft.name⟩ : DependentResolver) ∈
      s.dep_resolvers := by
    rw [hdr]
    exact List.mem_filterMap.mpr ⟨f.name, hfio, by rw [hlkp]⟩
  have hftnf : ft.name ∉ fittingNames fs := by
    intro hmem
    obtain ⟨f2, hf2, hfit2, hname2⟩ := mem_fittingNames.mp hmem
    have he : f2 = ft := name_inj hnd hf2 hft hname2
    rw [he, hkft] at hfit2
    simp [isFittingKind] at hfit2
  have htgts : ∀ r ∈ s.dep_resolvers, r.target ≠ ft.name := by
    intro r hr hcon
    rw [hdr] at hr
    obtain ⟨n2, _, hlk2⟩ := List.mem_filterMap.mp hr
    obtain ⟨f2, hf2, t2, hk2, hp2⟩ := mem_depMapSpec (lookup_mem hlk2)
    have hr2 : r = ⟨f2.name, t2⟩ := congrArg Prod.snd hp2
    rw [hr2] at hcon
    have he : f2 = ft := name_inj hnd hf2 hft hcon
    rw [he, hkft] at hk2
    exact FieldKind.noConfusion hk2
  have hkeys0 : ∀ p ∈ s.fitting_params.zip arr, p.1 ≠ ft.name := by
    intro p hp hcon
    obtain ⟨x, y⟩ := p
    have hx : x ∈ s.fitting_params := (List.of_mem_zip hp).1
    rw [hfp] at hx
    have hcon2 : x = ft.name := hcon
    rw [hcon2] at hx
    exact hftnf hx
  obtain ⟨n, hfold⟩ := foldDeps_err s.dep_resolvers
    (s.fitting_params.zip arr) ⟨⟨f.name, ft.name⟩, hrmem, rfl⟩
    hkeys0 htgts
  refine ⟨n, ?_⟩
  unfold array_to_instance
  rw [if_neg (fun hc => hc hlen)]
  show (s.dep_resolvers.foldlM depStep (s.fitting_params.zip arr)).bind
    (fun kwargs => mkInstance s.clss kwargs) = _
  rw [hfold]
  rfl

theorem claim_C10_witness :
    generate recConstTarget = .ok specConstTarget ∧
    ∃ n, array_to_instance specConstTarget [] =
      .error (.keyError n) :=
  ⟨by decide,
    claim_C10 recConstTarget specConstTarget (by decide) (by decide)
      (sameAsF "s" "c" none) (constF "c" (.fin 5))
      (by decide) (by decide) (by decide) (.fin 5) (by decide)
      [] (by decide)⟩

theorem lookup_cons_self {β : Type} (a : String) (b : β)
    (l : List (String × β)) :
    List.lookup a ((a, b) :: l) = some b := by
  rw [List.lookup, beq_self_eq_true]

theorem lookup_cons_ne {β : Type} {x a : String} (b : β)
    (l : List (String × β)) (h : (x == a) = false) :
    List.lookup x ((a, b) :: l) = List.lookup x l := by
  rw [List.lookup, h]

theorem lookup_isSome_of_key_mem {β : Type} {x : String} :
    ∀ {l : List (String × β)}, x ∈ l.map Prod.fst →
      (List.lookup x l).isSome := by
  intro l
  induction l with
  | nil => intro h; cases h
  | cons p tl ih =>
    intro h
    obtain ⟨a, b⟩ := p
    cases hbeq : x == a with
    | true => rw [List.lookup, hbeq]; rfl
    | false =>
      rw [List.lookup, hbeq]
      rcases List.mem_cons.mp h with h1 | h1
      · exact absurd h1 (ne_of_beq_false hbeq)
      · exact ih h1

theorem lookup_none_of_key_not_mem {β : Type} {x : String} :
    ∀ {l : List (String × β)}, x ∉ l.map Prod.fst →
      List.lookup x l = none := by
  intro l
  induction l with
  | nil => intro _; rfl
  | cons p tl ih =>
    intro h
    obtain ⟨a, b⟩ := p
    have hxa : x ≠ a := fun hc => h (List.mem_cons.mpr (Or.inl hc))
    rw [lookup_cons_ne b tl (beq_eq_false_iff_ne.mpr hxa)]
    exact ih (fun hc => h (List.mem_cons.mpr (Or.inr hc)))

theorem lookup_keys_nodup {β : Type} {k : String} {v : β} :
    ∀ {l : List (String × β)}, (l.map Prod.fst).Nodup →
      (k, v) ∈ l → List.lookup k l = some v := by
  intro l
  induction l with
  | nil => intro _ hmem; cases hmem
  | cons p tl ih =>
    intro hnd hmem
    rcases List.mem_cons.mp hmem with h1 | h1
    · subst h1
      exact lookup_cons_self k v tl
    · obtain ⟨a, b⟩ := p
      have hk : a ≠ k := by
        intro hcon
        have : k ∈ tl.map Prod.fst := List.mem_map.mpr ⟨(k, v), h1, rfl⟩
        rw [← hcon] at this
        exact (List.nodup_cons.mp (by simpa using hnd)).1 this
      rw [lookup_cons_ne b tl (beq_eq_false_iff_ne.mpr (Ne.symm hk))]
      exact ih (by simpa using (List.nodup_cons.mp (by simpa using hnd)).2) h1

theorem lookup_map_name {fs : List FieldDecl}
    (hnd : (fs.map (fun f => f.name)).Nodup) (g : FieldDecl → EF)
    {f : FieldDecl} (hf : f ∈ fs) :
    List.lookup f.name (fs.map (fun f2 => (f2.name, g f2))) =
      some (g f) := by
  apply lookup_keys_nodup
  · rw [List.map_map]
    exact hnd
  · exact List.mem_map.mpr ⟨f, hf, rfl⟩

theorem getattrEF_ok {inst : Instance} {a : String} {b : EF}
    (h : getattrEF inst a = .ok b) : List.lookup a inst = some b := by
  unfold getattrEF at h
  cases hl : List.lookup a inst with
  | none =>
    rw [hl] at h
    have h2 : (Except.error (SpecError.attributeError a) :
        Except SpecError EF) = Except.ok b := h
    cases h2
  | some v =>
    rw [hl] at h
    have h2 : (Except.ok v : Except SpecError EF) = Except.ok b := h
    rw [Except.ok.inj h2]

theorem mapM_getattr_ok {inst : Instance} :
    ∀ {names : List String},
      (∀ x ∈ names, (List.lookup x inst).isSome) →
      ∃ arr, List.mapM (getattrEF inst) names = .ok arr ∧
        arr.length = names.length := by
  intro names
  induction names with
  | nil => intro _; exact ⟨[], rfl, rfl⟩
  | cons a tl ih =>
    intro hall
    obtain ⟨arr, harr, hlen⟩ :=
      ih (fun x hx => hall x (List.mem_cons_of_mem a hx))
    have hsome := hall a (List.mem_cons_self a tl)
    cases hl : List.lookup a inst with
    | none => rw [hl] at hsome; cases hsome
    | some v =>
      refine ⟨v :: arr, ?_, by simp [hlen]⟩
      rw [List.mapM_cons]
      have hga : getattrEF inst a = .ok v := by unfold getattrEF; rw [hl]
      rw [hga, harr]
      rfl

theorem zip_mapM_lookup {inst : Instance} :
    ∀ {names : List String} {vals : List EF},
      List.mapM (getattrEF inst) names = Except.ok vals →
      ∀ x : String, List.lookup x (names.zip vals) =
        if x ∈ names then List.lookup x inst else none := by
  intro names
  induction names with
  | nil =>
    intro vals h x
    have h2 : (Except.ok [] : Except SpecError (List EF)) = .ok vals := h
    rw [← Except.ok.inj h2]
    simp
  | cons a tl ih =>
    intro vals h x
    rw [List.mapM_cons] at h
    cases hga : getattrEF inst a with
    | error e =>
      rw [hga] at h
      have h2 : (Except.error e : Except SpecError (List EF)) = .ok vals := h
      cases h2
    | ok b =>
      rw [hga] at h
      cases hmt : List.mapM (getattrEF inst) tl with
      | error e =>
        rw [hmt] at h
        have h2 : (Except.error e : Except SpecError (List EF)) =
          .ok vals := h
        cases h2
      | ok bs =>
        rw [hmt] at h
        have h2 : (Except.ok (b :: bs) : Except SpecError (List EF)) =
          .ok vals := h
        have h3 := Except.ok.inj h2
        subst h3
        by_cases hxa : x = a
        · subst hxa
          rw [if_pos (List.mem_cons_self x tl)]
          show List.lookup x ((x, b) :: tl.zip bs) = List.lookup x inst
          rw [lookup_cons_self, getattrEF_ok hga]
        · have hbeq : (x == a) = false := beq_eq_false_iff_ne.mpr hxa
          show List.lookup x ((a, b) :: tl.zip bs) = _
          rw [lookup_cons_ne b (tl.zip bs) hbeq, ih hmt x]
          by_cases hx : x ∈ tl
          · rw [if_pos hx, if_pos (List.mem_cons_of_mem a hx)]
          · rw [if_neg hx,
              if_neg (fun hc => (List.mem_cons.mp hc).elim hxa hx)]

theorem foldDeps_ok :
    ∀ (rs : List DependentResolver) (kw : List (String × EF)),
      ResolvableFrom (kw.map Prod.fst) rs →
      OrderOk rs →
      (rs.map (fun r => r.target)).Nodup →
      ∃ kw2, List.foldlM depStep kw rs = .ok kw2 ∧
        (∀ x, x ∉ rs.map (fun r => r.target) →
          List.lookup x kw2 = List.lookup x kw) ∧
        (∀ r ∈ rs, List.lookup r.target kw2 = List.lookup r.name kw2) ∧
        kw2.map Prod.fst =
          (rs.map (fun r => r.target)).reverse ++ kw.map Prod.fst := by
  intro rs
  induction rs with
  | nil =>
    intro kw _ _ _
    exact ⟨kw, rfl, fun x _ => rfl,
      fun r hr => absurd hr (List.not_mem_nil r), by simp⟩
  | cons r0 rest ih =>
    intro kw hres hord hnd
    obtain ⟨hr0, hres2⟩ := hres
    obtain ⟨hord0, hord2⟩ := hord
    rw [List.map_cons] at hnd
    have ht0 : r0.target ∉ rest.map (fun r => r.target) :=
      (List.nodup_cons.mp hnd).1
    have hnd2 := (List.nodup_cons.mp hnd).2
    have hsome : (List.lookup r0.name kw).isSome :=
      lookup_isSome_of_key_mem hr0
    cases hl : List.lookup r0.name kw with
    | none => rw [hl] at hsome; cases hsome
    | some v =>
      have hstep : depStep kw r0 = .ok ((r0.target, v) :: kw) := by
        unfold depStep; rw [hl]
      have hres3 :
          ResolvableFrom (((r0.target, v) :: kw).map Prod.fst) rest :=
        hres2
      obtain ⟨kw2, hfold, hpres, hpairs, hkeys⟩ :=
        ih ((r0.target, v) :: kw) hres3 hord2 hnd2
      refine ⟨kw2, ?_, ?_, ?_, ?_⟩
      · rw [List.foldlM_cons, hstep]
        exact hfold
      · intro x hx
        have hx0 : x ≠ r0.target := fun hc =>
          hx (by rw [List.map_cons]; exact List.mem_cons.mpr (Or.inl hc))
        have hxrest : x ∉ rest.map (fun r => r.target) := fun hc =>
          hx (by rw [List.map_cons]; exact List.mem_cons.mpr (Or.inr hc))
        rw [hpres x hxrest]
        exact lookup_cons_ne v kw (beq_eq_false_iff_ne.mpr hx0)
      · intro r hr
        rcases List.mem_cons.mp hr with h1 | h1
        · subst h1
          have htv : List.lookup r.target kw2 = some v := by
            rw [hpres r.target ht0]
            exact lookup_cons_self r.target v kw
          have hnltgt : r.name ∉ rest.map (fun r2 => r2.target) := by
            intro hc
            exact hord0
              (by rw [List.map_cons]; exact List.mem_cons.mpr (Or.inr hc))
          have hnne : r.name ≠ r.target := by
            intro hc
            exact hord0
              (by rw [List.map_cons]; exact List.mem_cons.mpr (Or.inl hc))
          have hnv : List.lookup r.name kw2 = some v := by
            rw [hpres r.name hnltgt,
              lookup_cons_ne v kw (beq_eq_false_iff_ne.mpr hnne), hl]
          rw [htv, hnv]
        · exact hpairs r h1
      · rw [hkeys]
        simp

theorem resolvableAux (dm : List (String × DependentResolver)) :
    ∀ (io : List String) (keys : List String), io.Nodup →
      (∀ n ∈ io, ∀ r, List.lookup n dm = some r → r.target = n) →
      (∀ n ∈ io, ∀ r, List.lookup n dm = some r →
        r.name ∈ keys ∨
          ((List.lookup r.name dm).isSome ∧ r.name ∈ io ∧
            List.indexOf r.name io < List.indexOf n io)) →
      ResolvableFrom keys (io.filterMap (fun n => List.lookup n dm)) := by
  intro io
  induction io with
  | nil => intro keys _ _ _; exact trivial
  | cons n0 tl ih =>
    intro keys hnd htgt hav
    rw [List.filterMap_cons]
    cases hg : List.lookup n0 dm with
    | none =>
      apply ih keys (List.nodup_cons.mp hnd).2
        (fun n hn r hr => htgt n (List.mem_cons_of_mem n0 hn) r hr)
      intro n hn r hr
      rcases hav n (List.mem_cons_of_mem n0 hn) r hr with
        h1 | ⟨hsome, hmem, hlt⟩
      · exact Or.inl h1
      · rcases List.mem_cons.mp hmem with h2 | h2
        · rw [h2, hg] at hsome
          cases hsome
        · refine Or.inr ⟨hsome, h2, ?_⟩
          have hn0name : r.name ≠ n0 := by
            intro hc; rw [hc, hg] at hsome; cases hsome
          have hn0n : n ≠ n0 := fun hc =>
            (List.nodup_cons.mp hnd).1 (hc ▸ hn)
          rw [List.indexOf_cons_ne _ (Ne.symm hn0name),
            List.indexOf_cons_ne _ (Ne.symm hn0n)] at hlt
          omega
    | some r0 =>
      refine ⟨?_, ?_⟩
      · rcases hav n0 (List.mem_cons_self n0 tl) r0 hg with
          h1 | ⟨_, _, hlt⟩
        · exact h1
        · rw [List.indexOf_cons_self] at hlt
          omega
      · have htg : r0.target = n0 :=
          htgt n0 (List.mem_cons_self n0 tl) r0 hg
        rw [htg]
        apply ih (n0 :: keys) (List.nodup_cons.mp hnd).2
          (fun n hn r hr => htgt n (List.mem_cons_of_mem n0 hn) r hr)
        intro n hn r hr
        rcases hav n (List.mem_cons_of_mem n0 hn) r hr with
          h1 | ⟨hsome, hmem, hlt⟩
        · exact Or.inl (List.mem_cons_of_mem n0 h1)
        · rcases List.mem_cons.mp hmem with h2 | h2
          · exact Or.inl (by rw [h2]; exact List.mem_cons_self n0 keys)
          · by_cases hcn0 : r.name = n0
            · exact Or.inl (by rw [hcn0]; exact List.mem_cons_self n0 keys)
            · refine Or.inr ⟨hsome, h2, ?_⟩
              have hn0n : n ≠ n0 := fun hc =>
                (List.nodup_cons.mp hnd).1 (hc ▸ hn)
              rw [List.indexOf_cons_ne _ (Ne.symm hcn0),
                List.indexOf_cons_ne _ (Ne.symm hn0n)] at hlt
              omega

theorem orderOkAux (dm : List (String × DependentResolver)) :
    ∀ (io : List String), io.Nodup →
      (∀ n ∈ io, ∀ r, List.lookup n dm = some r → r.target = n) →
      (∀ n ∈ io, ∀ r, List.lookup n dm = some r →
        ∀ m ∈ io, List.indexOf n io ≤ List.indexOf m io → r.name ≠ m) →
      OrderOk (io.filterMap (fun n => List.lookup n dm)) := by
  intro io
  induction io with
  | nil => intro _ _ _; exact trivial
  | cons n0 tl ih =>
    intro hnd htgt hname
    rw [List.filterMap_cons]
    have htl : OrderOk (tl.filterMap (fun n => List.lookup n dm)) := by
      apply ih (List.nodup_cons.mp hnd).2
        (fun n hn r hr => htgt n (List.mem_cons_of_mem n0 hn) r hr)
      intro n hn r hr m hm hle
      apply hname n (List.mem_cons_of_mem n0 hn) r hr m
        (List.mem_cons_of_mem n0 hm)
      have hn0n : n ≠ n0 := fun hc => (List.nodup_cons.mp hnd).1 (hc ▸ hn)
      have hn0m : m ≠ n0 := fun hc => (List.nodup_cons.mp hnd).1 (hc ▸ hm)
      rw [List.indexOf_cons_ne _ (Ne.symm hn0n),
        List.indexOf_cons_ne _ (Ne.symm hn0m)]
      omega
    cases hg : List.lookup n0 dm with
    | none => exact htl
    | some r0 =>
      refine ⟨?_, htl⟩
      intro hc
      rw [List.map_cons] at hc
      rcases List.mem_cons.mp hc with h1 | h1
      · have htg : r0.target = n0 :=
          htgt n0 (List.mem_cons_self n0 tl) r0 hg
        exact hname n0 (List.mem_cons_self n0 tl) r0 hg n0
          (List.mem_cons_self n0 tl) (le_refl _) (h1.trans htg)
      · obtain ⟨r1, hr1, hr1t⟩ := List.mem_map.mp h1
        obtain ⟨m, hm, hml⟩ := List.mem_filterMap.mp hr1
        have htg1 : r1.target = m :=
          htgt m (List.mem_cons_of_mem n0 hm) r1 hml
        have hrm : r0.name = m := by rw [← hr1t, htg1]
        exact hname n0 (List.mem_cons_self n0 tl) r0 hg m
          (List.mem_cons_of_mem n0 hm)
          (by rw [List.indexOf_cons_self]; omega) hrm

theorem targets_filterMap (dm : List (String × DependentResolver)) :
    ∀ (io : List String),
      (∀ n ∈ io, ∀ r, List.lookup n dm = some r → r.target = n) →
      (io.filterMap (fun n => List.lookup n dm)).map
          (fun r => r.target) =
        io.filter (fun n => (List.lookup n dm).isSome) := by
  intro io
  induction io with
  | nil => intro _; rfl
  | cons n0 tl ih =>
    intro htgt
    rw [List.filterMap_cons, List.filter_cons]
    cases hg : List.lookup n0 dm with
    | none =>
      show (tl.filterMap (fun n => List.lookup n dm)).map
          (fun r => r.target) =
        if (false = true) then _ else tl.filter _
      rw [if_neg (by intro hcon; cases hcon)]
      exact ih (fun n hn r hr => htgt n (List.mem_cons_of_mem n0 hn) r hr)
    | some r0 =>
      show r0.target :: (tl.filterMap (fun n => List.lookup n dm)).map
          (fun r => r.target) =
        if (true = true) then n0 :: tl.filter _ else _
      rw [if_pos rfl,
        htgt n0 (List.mem_cons_self n0 tl) r0 hg,
        ih (fun n hn r hr => htgt n (List.mem_cons_of_mem n0 hn) r hr)]

theorem isConst_not_sameAs {k : FieldKind} (h : isConstKind k = true) :
    isSameAsKind k = false := by
  cases k with
  | const v => rfl
  | regular => exact Bool.noConfusion h
  | bounded mn mx => exact Bool.noConfusion h
  | sameAs t => exact Bool.noConfusion h

theorem isConst_not_fitting {k : FieldKind} (h : isConstKind k = true) :
    isFittingKind k = false := by
  cases k with
  | const v => rfl
  | regular => exact Bool.noConfusion h
  | bounded mn mx => exact Bool.noConfusion h
  | sameAs t => exact Bool.noConfusion h

theorem isSameAs_not_fitting {k : FieldKind} (h : isSameAsKind k = true) :
    isFittingKind k = false := by
  cases k with
  | sameAs t => rfl
  | regular => exact Bool.noConfusion h
  | bounded mn mx => exact Bool.noConfusion h
  | const v => exact Bool.noConfusion h

theorem noConstTargets_spec {fs : List FieldDecl}
    (h : noConstTargets fs = true) :
    ∀ f ∈ fs, ∀ t, f.kind = .sameAs t →
      ∀ ft ∈ fs, ft.name = t → isConstKind ft.kind = false := by
  intro f hf t hk ft hft hname
  unfold noConstTargets at h
  rw [List.all_eq_true] at h
  have h1 := h f hf
  rw [hk] at h1
  have h1b : fs.all
      (fun ft2 => !(ft2.name == t) || !(isConstKind ft2.kind)) = true := h1
  rw [List.all_eq_true] at h1b
  have h2 := h1b ft hft
  have hbt : (ft.name == t) = true := by
    rw [hname]; exact beq_self_eq_true t
  rw [hbt] at h2
  simp at h2
  exact h2

theorem constDefaultsOk_spec {fs : List FieldDecl}
    (h : constDefaultsOk fs = true) :
    ∀ f ∈ fs, ∀ v, f.kind = .const v → f.default = some v := by
  intro f hf v hk
  unfold constDefaultsOk at h
  rw [List.all_eq_true] at h
  have h1 := h f hf
  rw [hk] at h1
  have h2 : (f.default == some v) = true := h1
  exact eq_of_beq h2

theorem hasAllFields_spec {inst : Instance} {fs : List FieldDecl}
    (h : hasAllFields inst fs = true) :
    ∀ f ∈ fs, (List.lookup f.name inst).isSome := by
  intro f hf
  unfold hasAllFields at h
  rw [List.all_eq_true] at h
  exact h f hf

theorem mapM_fieldValue_eq {kw : List (String × EF)} :
    ∀ {fs : List FieldDecl},
      (∀ f ∈ fs, (List.lookup f.name kw).isSome ∨ f.default.isSome) →
      List.mapM (fieldValue kw) fs =
        .ok (fs.map (fun f => (f.name, chooseVal kw f))) := by
  intro fs
  induction fs with
  | nil => intro _; rfl
  | cons f tl ih =>
    intro hall
    rw [List.mapM_cons, ih (fun g hg => hall g (List.mem_cons_of_mem f hg))]
    have hv : fieldValue kw f = .ok (f.name, chooseVal kw f) := by
      unfold fieldValue chooseVal
      cases hl : List.lookup f.name kw with
      | some v => rfl
      | none =>
        rcases hall f (List.mem_cons_self f tl) with h1 | h1
        · rw [hl] at h1; cases h1
        · cases hd : f.default with
          | none => rw [hd] at h1; cases h1
          | some d => rfl
    rw [hv]
    rfl

theorem mkInstance_ok {fs : List FieldDecl} {kw : List (String × EF)}
    (hkeys : ∀ x ∈ kw.map Prod.fst, x ∈ fs.map (fun f => f.name))
    (hall : ∀ f ∈ fs, (List.lookup f.name kw).isSome ∨ f.default.isSome) :
    mkInstance fs kw =
      .ok (fs.map (fun f => (f.name, chooseVal kw f))) := by
  unfold mkInstance
  have hcond : (kw.all (fun kv => fs.any (fun f => f.name == kv.1))) =
      true := by
    rw [List.all_eq_true]
    intro kv hkv
    rw [List.any_eq_true]
    obtain ⟨f, hf, hfn⟩ :=
      List.mem_map.mp (hkeys kv.1 (List.mem_map.mpr ⟨kv, hkv, rfl⟩))
    exact ⟨f, hf, beq_iff_eq.mpr hfn⟩
  rw [if_pos hcond]
  exact mapM_fieldValue_eq hall

/-- Claim C4 (amended): for a record whose generation succeeds, provided no
`SameAs` field targets a `Const` field (the counterexample shows the
round-trip otherwise raises `KeyError`), writing a valid instance into an
array of length `fitting_param_count` and reading it back yields an
instance that agrees with the original on every fitting param, gives every
`Const` field its fixed value, and gives every `SameAs` field exactly its
target's resulting value. -/
theorem claim_C4 (fs : List FieldDecl) (s : FitSpec) (inst : Instance)
    (hnd : (fs.map (fun f => f.name)).Nodup)
    (h : generate fs = .ok s)
    (hnc : noConstTargets fs = true)
    (hcd : constDefaultsOk fs = true)
    (hall : hasAllFields inst fs = true) :
    ∃ arr inst2,
      instance_to_array s inst s.fitting_param_count = .ok arr ∧
      array_to_instance s arr = .ok inst2 ∧
      (∀ f ∈ fs, isFittingKind f.kind = true →
        List.lookup f.name inst2 = List.lookup f.name inst) ∧
      (∀ f ∈ fs, ∀ v, f.kind = .const v →
        List.lookup f.name inst2 = some v) ∧
      (∀ f ∈ fs, ∀ t, f.kind = .sameAs t →
        List.lookup f.name inst2 = List.lookup t inst2 ∧
          (List.lookup f.name inst2).isSome) := by
  obtain ⟨hclss, hsp, hfp, hfpc, hperm, htopo, hdr, htex⟩ :=
    generate_ok hnd h
  have hkeysnd : ((depMapSpec fs).map Prod.fst).Nodup :=
    List.Nodup.sublist (depMapSpec_keys_sublist fs) hnd
  have hdmfact : ∀ n r, List.lookup n (depMapSpec fs) = some r →
      ∃ f2 ∈ fs, f2.name = n ∧ f2.kind = .sameAs r.name ∧ r.target = n := by
    intro n r hr
    obtain ⟨f2, hf2, t2, hk2, hp2⟩ := mem_depMapSpec (lookup_mem hr)
    have hn : n = f2.name := congrArg Prod.fst hp2
    have hrr : r = ⟨f2.name, t2⟩ := congrArg Prod.snd hp2
    exact ⟨f2, hf2, hn.symm, by rw [hrr]; exact hk2,
      by rw [hrr]; exact hn.symm⟩
  have hinstall := hasAllFields_spec hall
  have hfitnames : ∀ x ∈ fittingNames fs, (List.lookup x inst).isSome := by
    intro x hx
    obtain ⟨f2, hf2, _, hname⟩ := mem_fittingNames.mp hx
    rw [← hname]
    exact hinstall f2 hf2
  have hargall : ∀ x ∈ s.fitting_params, (List.lookup x inst).isSome := by
    intro x hx
    rw [hfp] at hx
    exact hfitnames x hx
  obtain ⟨arr, harr, hlen⟩ := mapM_getattr_ok hargall
  have hita : instance_to_array s inst s.fitting_param_count = .ok arr := by
    unfold instance_to_array
    rw [if_neg (fun hc => hc rfl)]
    exact harr
  have hkw0 := zip_mapM_lookup harr
  have hkw0keys : (s.fitting_params.zip arr).map Prod.fst =
      s.fitting_params := by
    apply List.map_fst_zip
    rw [hlen]
  have hionodup : s.init_order.Nodup := (List.Perm.nodup_iff hperm).mpr hnd
  have htgtfact : ∀ n ∈ s.init_order, ∀ r,
      List.lookup n (depMapSpec fs) = some r → r.target = n := by
    intro n _ r hr
    obtain ⟨f2, hf2, hn2, hk2, htg⟩ := hdmfact n r hr
    exact htg
  have hres : ResolvableFrom
      ((s.fitting_params.zip arr).map Prod.fst) s.dep_resolvers := by
    rw [hkw0keys, hfp, hdr]
    apply resolvableAux (depMapSpec fs) s.init_order (fittingNames fs)
      hionodup htgtfact
    intro n hn r hr
    obtain ⟨f2, hf2, hn2, hk2, _⟩ := hdmfact n r hr
    obtain ⟨ftf, hftf, hfname⟩ : ∃ g ∈ fs, g.name = r.name := by
      obtain ⟨g, hg, hgn⟩ := List.mem_map.mp (htex f2 hf2 r.name hk2)
      exact ⟨g, hg, hgn⟩
    cases hfk : ftf.kind with
    | regular =>
      exact Or.inl
        (mem_fittingNames.mpr ⟨ftf, hftf, by rw [hfk]; rfl, hfname⟩)
    | bounded mn mx =>
      exact Or.inl
        (mem_fittingNames.mpr ⟨ftf, hftf, by rw [hfk]; rfl, hfname⟩)
    | const v =>
      have hck := noConstTargets_spec hnc f2 hf2 r.name hk2 ftf hftf hfname
      rw [hfk] at hck
      exact Bool.noConfusion hck
    | sameAs t2 =>
      refine Or.inr ⟨?_, ?_, ?_⟩
      · have hmem := depMapSpec_mem hftf hfk
        rw [hfname] at hmem
        rw [lookup_of_keys_nodup hkeysnd hmem]
        rfl
      · apply hperm.mem_iff.mpr
        rw [← hfname]
        exact List.mem_map.mpr ⟨ftf, hftf, rfl⟩
      · have hlt := htopo f2 hf2 r.name hk2
        rw [hn2] at hlt
        exact hlt
  have hord : OrderOk s.dep_resolvers := by
    rw [hdr]
    apply orderOkAux (depMapSpec fs) s.init_order hionodup htgtfact
    intro n hn r hr m hm hle hc
    obtain ⟨f2, hf2, hn2, hk2, _⟩ := hdmfact n r hr
    have hlt := htopo f2 hf2 r.name hk2
    rw [hn2] at hlt
    rw [hc] at hlt
    omega
  have htnodup : (s.dep_resolvers.map (fun r => r.target)).Nodup := by
    rw [hdr, targets_filterMap (depMapSpec fs) s.init_order htgtfact]
    exact List.Nodup.filter _ hionodup
  obtain ⟨kw2, hfold, hpres, hpairs, hkeys2⟩ :=
    foldDeps_ok s.dep_resolvers (s.fitting_params.zip arr) hres hord htnodup
  have hkeys2' : kw2.map Prod.fst =
      (s.dep_resolvers.map (fun r => r.target)).reverse ++
        s.fitting_params := by
    rw [hkeys2, hkw0keys]
  have htgt_is_sameAs : ∀ x ∈ s.dep_resolvers.map (fun r => r.target),
      ∃ f2 ∈ fs, f2.name = x ∧ isSameAsKind f2.kind = true := by
    intro x hx
    obtain ⟨r, hr, hrt⟩ := List.mem_map.mp hx
    rw [hdr] at hr
    obtain ⟨n2, hn2, hlk2⟩ := List.mem_filterMap.mp hr
    obtain ⟨f2, hf2, hfn2, hk2, htg⟩ := hdmfact n2 r hlk2
    refine ⟨f2, hf2, ?_, by rw [hk2]; rfl⟩
    rw [hfn2, ← htg, hrt]
  have hkw2sub : ∀ x ∈ kw2.map Prod.fst,
      x ∈ fs.map (fun f => f.name) := by
    intro x hx
    rw [hkeys2'] at hx
    rcases List.mem_append.mp hx with h1 | h1
    · rw [List.mem_reverse] at h1
      obtain ⟨f2, hf2, hname, _⟩ := htgt_is_sameAs x h1
      exact List.mem_map.mpr ⟨f2, hf2, hname⟩
    · rw [hfp] at h1
      obtain ⟨f2, hf2, _, hname⟩ := mem_fittingNames.mp h1
      exact List.mem_map.mpr ⟨f2, hf2, hname⟩
  have hfit_mem : ∀ f ∈ fs, isFittingKind f.kind = true →
      f.name ∈ kw2.map Prod.fst := by
    intro f hf hfk
    rw [hkeys2']
    exact List.mem_append.mpr (Or.inr
      (by rw [hfp]; exact mem_fittingNames.mpr ⟨f, hf, hfk, rfl⟩))
  have hsa_resolver : ∀ f ∈ fs, ∀ t, f.kind = .sameAs t →
      (⟨f.name, t⟩ : DependentResolver) ∈ s.dep_resolvers := by
    intro f hf t hk
    rw [hdr]
    refine List.mem_filterMap.mpr ⟨f.name, ?_, ?_⟩
    · exact hperm.mem_iff.mpr (List.mem_map.mpr ⟨f, hf, rfl⟩)
    · rw [lookup_of_keys_nodup hkeysnd (depMapSpec_mem hf hk)]
  have hsa_mem : ∀ f ∈ fs, ∀ t, f.kind = .sameAs t →
      f.name ∈ kw2.map Prod.fst := by
    intro f hf t hk
    rw [hkeys2']
    apply List.mem_append.mpr
    refine Or.inl ?_
    rw [List.mem_reverse]
    exact List.mem_map.mpr ⟨⟨f.name, t⟩, hsa_resolver f hf t hk, rfl⟩
  have hconst_not_mem : ∀ f ∈ fs, isConstKind f.kind = true →
      f.name ∉ kw2.map Prod.fst := by
    intro f hf hck hx
    rw [hkeys2'] at hx
    rcases List.mem_append.mp hx with h1 | h1
    · rw [List.mem_reverse] at h1
      obtain ⟨f2, hf2, hname, hsk⟩ := htgt_is_sameAs f.name h1
      have he : f2 = f := name_inj hnd hf2 hf hname
      rw [he] at hsk
      rw [isConst_not_sameAs hck] at hsk
      exact Bool.noConfusion hsk
    · rw [hfp] at h1
      obtain ⟨f2, hf2, hfk2, hname⟩ := mem_fittingNames.mp h1
      have he : f2 = f := name_inj hnd hf2 hf hname
      rw [he] at hfk2
      rw [isConst_not_fitting hck] at hfk2
      exact Bool.noConfusion hfk2
  have hmkall : ∀ f ∈ fs,
      (List.lookup f.name kw2).isSome ∨ f.default.isSome := by
    intro f hf
    cases hk : f.kind with
    | regular =>
      exact Or.inl
        (lookup_isSome_of_key_mem (hfit_mem f hf (by rw [hk]; rfl)))
    | bounded mn mx =>
      exact Or.inl
        (lookup_isSome_of_key_mem (hfit_mem f hf (by rw [hk]; rfl)))
    | sameAs t =>
      exact Or.inl (lookup_isSome_of_key_mem (hsa_mem f hf t hk))
    | const v =>
      refine Or.inr ?_
      rw [constDefaultsOk_spec hcd f hf v hk]
      rfl
  have hmk : mkInstance s.clss kw2 =
      .ok (fs.map (fun f => (f.name, chooseVal kw2 f))) := by
    rw [hclss]
    exact mkInstance_ok hkw2sub hmkall
  have hlen2 : arr.length = s.fitting_param_count := by
    rw [hlen, hfp, hfpc]
  have hati : array_to_instance s arr =
      .ok (fs.map (fun f => (f.name, chooseVal kw2 f))) := by
    unfold array_to_instance
    rw [if_neg (fun hc => hc hlen2)]
    show (s.dep_resolvers.foldlM depStep (s.fitting_params.zip arr)).bind
      (fun kwargs => mkInstance s.clss kwargs) = _
    rw [hfold]
    exact hmk
  refine ⟨arr, fs.map (fun f => (f.name, chooseVal kw2 f)), hita, hati,
    ?_, ?_, ?_⟩
  · intro f hf hfk
    rw [lookup_map_name hnd (fun f2 => chooseVal kw2 f2) hf]
    have hsome2 := lookup_isSome_of_key_mem (hfit_mem f hf hfk)
    cases hl2 : List.lookup f.name kw2 with
    | none => rw [hl2] at hsome2; cases hsome2
    | some v =>
      have hcv : chooseVal kw2 f = v := by unfold chooseVal; rw [hl2]
      rw [hcv]
      have hnott : f.name ∉ s.dep_resolvers.map (fun r => r.target) := by
        intro hc
        obtain ⟨f2, hf2, hname, hsk⟩ := htgt_is_sameAs f.name hc
        have he : f2 = f := name_inj hnd hf2 hf hname
        rw [he] at hsk
        rw [isSameAs_not_fitting hsk] at hfk
        exact Bool.noConfusion hfk
      have hpr := hpres f.name hnott
      rw [hl2] at hpr
      have hmem0 : f.name ∈ s.fitting_params := by
        rw [hfp]
        exact mem_fittingNames.mpr ⟨f, hf, hfk, rfl⟩
      have hzip := hkw0 f.name
      rw [if_pos hmem0] at hzip
      rw [← hzip, ← hpr]
  · intro f hf v hk
    rw [lookup_map_name hnd (fun f2 => chooseVal kw2 f2) hf]
    have hnone : List.lookup f.name kw2 = none :=
      lookup_none_of_key_not_mem (hconst_not_mem f hf (by rw [hk]; rfl))
    have hcv : chooseVal kw2 f = v := by
      unfold chooseVal
      rw [hnone, constDefaultsOk_spec hcd f hf v hk]
      rfl
    rw [hcv]
  · intro f hf t hk
    obtain ⟨ftf, hftf, hfname⟩ : ∃ g ∈ fs, g.name = t := by
      obtain ⟨g, hg, hgn⟩ := List.mem_map.mp (htex f hf t hk)
      exact ⟨g, hg, hgn⟩
    have hpair2 : List.lookup f.name kw2 = List.lookup t kw2 :=
      hpairs ⟨f.name, t⟩ (hsa_resolver f hf t hk)
    have hsome2 := lookup_isSome_of_key_mem (hsa_mem f hf t hk)
    cases hl2 : List.lookup f.name kw2 with
    | none => rw [hl2] at hsome2; cases hsome2
    | some v =>
      have hcvf : chooseVal kw2 f = v := by unfold chooseVal; rw [hl2]
      have hlt2 : List.lookup t kw2 = some v := by rw [← hpair2, hl2]
      have hcvt : chooseVal kw2 ftf = v := by
        unfold chooseVal
        rw [hfname, hlt2]
      refine ⟨?_, ?_⟩
      · rw [lookup_map_name hnd (fun f2 => chooseVal kw2 f2) hf, hcvf,
          ← hfname, lookup_map_name hnd (fun f2 => chooseVal kw2 f2) hftf,
          hcvt]
      · rw [lookup_map_name hnd (fun f2 => chooseVal kw2 f2) hf]
        rfl

/-- Claim C4 (counterexample to the unqualified round-trip): on the record
`c: Const(5), s: SameAs(c)` generation succeeds and the instance holds
every field, yet `array_to_instance (instance_to_array inst)` raises
`KeyError('c')`, because the kwargs mapping never holds `Const` values. -/
theorem claim_C4_counterexample :
    generate recConstTarget = .ok specConstTarget ∧
    hasAllFields [("c", EF.fin 5), ("s", EF.fin 5)] recConstTarget = true ∧
    (instance_to_array specConstTarget [("c", EF.fin 5), ("s", EF.fin 5)]
        specConstTarget.fitting_param_count).bind
      (fun arr => array_to_instance specConstTarget arr) =
      .error (.keyError "c") := by
  decide

theorem claim_C4_witness :
    generate recRegularSameAsConst = .ok specRegularSameAsConst ∧
    noConstTargets recRegularSameAsConst = true ∧
    constDefaultsOk recRegularSameAsConst = true ∧
    hasAllFields instRSC recRegularSameAsConst = true ∧
    ∃ arr inst2,
      instance_to_array specRegularSameAsConst instRSC
        specRegularSameAsConst.fitting_param_count = .ok arr ∧
      array_to_instance specRegularSameAsConst arr = .ok inst2 ∧
      (∀ f ∈ recRegularSameAsConst, isFittingKind f.kind = true →
        List.lookup f.name inst2 = List.lookup f.name instRSC) ∧
      (∀ f ∈ recRegularSameAsConst, ∀ v, f.kind = .const v →
        List.lookup f.name inst2 = some v) ∧
      (∀ f ∈ recRegularSameAsConst, ∀ t, f.kind = .sameAs t →
        List.lookup f.name inst2 = List.lookup t inst2 ∧
          (List.lookup f.name inst2).isSome) :=
  ⟨by decide, by decide, by decide, by decide,
    claim_C4 recRegularSameAsConst specRegularSameAsConst instRSC
      (by decide) (by decide) (by decide) (by decide) (by decide)⟩

end SDFitParams
